import Mathlib

/-!
# Verification of the rsdocbot auto-pagination engine

Shallow embedding of `src/docs.rs`, `src/main.rs` (callback handler) of the
rsdocbot repository, together with proofs about the embedded operations.

Modelling conventions:
* Rust `String` buffers that only ever receive whole markup markers or whole
  escaped literal fragments are modelled as `List Chunk`, where a `Chunk` is
  either one literal fragment (stored pre-escape, escaped by `renderChunks`)
  or one open/close marker of a concrete tag.  The rendered page text of the
  source is recovered by `renderChunks`; concatenation commutes with
  rendering, so the model is faithful to the `push_str`-built string.
* Rust byte lengths (`str::len`) are modelled by `utf8Len`, the sum of the
  UTF-8 sizes of the characters.
* The `url` crate's base-resolution (`Url::options().base_url(..).parse`) is
  an external collaborator; it is threaded through as an abstract parameter
  `resolve : String → Option String` (`none` models an unparsable href).
* `ParseMode::HTML.escape` of the external telbot crate is modelled from the
  spec (§6: literal text must be escaped for the markup markers `&`, `<`,
  `>` before insertion) as `htmlEscape`.
* The `regex` replacement `\s+` → `" "` is modelled by `collapseWs`; `wsChar`
  enumerates the Unicode `White_Space` code points matched by Rust's `\s`.
-/

set_option maxRecDepth 20000
set_option autoImplicit false

namespace Rsdocbot

/-- Embeds `paradocs::TextStyle`. -/
inductive TextStyle where
  | link (href : String)
  | bold
  | italic
  | underline
  | strikethrough
  | monospaced
  deriving DecidableEq, Repr

/-- Embeds `paradocs::TextPart`. -/
inductive TextPart where
  | text (t : String)
  | image (src : String)
  | table
  | beginStyle (sty : TextStyle)
  | endStyle
  deriving DecidableEq, Repr

/-- Embeds `paradocs::Paragraph`. -/
inductive Paragraph where
  | text (run : List TextPart)
  | list (items : List (List TextPart))
  | code (run : List TextPart)
  deriving DecidableEq, Repr

/-- Embeds `paradocs::ItemRow`: a name run plus a summary run. -/
structure ItemRow where
  name : List TextPart
  summary : List TextPart
  deriving DecidableEq, Repr

/-- One description section of a `paradocs::Document`. -/
structure DocSection where
  heading : Option (List TextPart)
  contents : List Paragraph
  deriving DecidableEq, Repr

/-- Embeds `paradocs::ListingType`. -/
inductive ListingKind where
  | table (rows : List ItemRow)
  | fields
  | impls
  deriving DecidableEq, Repr

/-- One item listing of a `paradocs::Document`. -/
structure ItemList where
  heading : List TextPart
  kind : ListingKind
  deriving DecidableEq, Repr

/-- Embeds `paradocs::Document` (the parts consumed by `build_documentation`). -/
structure Document where
  title : List TextPart
  declaration : Option (List TextPart)
  description : List DocSection
  items : List ItemList
  deriving DecidableEq, Repr

/-- One inline keyboard button: label text plus `callback_data` payload
(`InlineKeyboardButtonKind::Callback`). -/
structure Button where
  label : String
  callback_data : String
  deriving DecidableEq, Repr

/-- Embeds `InlineKeyboardRow`: the buttons of one row, in order
(`new_emplace` builds a one-button row, `emplace` appends). -/
abbrev Row := List Button

/-- The HTML tags emitted by the writer.  The source stores the concrete
`(open, close)` marker pair; each pair is determined by the tag (for links,
by the resolved-and-quote-escaped href), and `tagOpen`/`tagClose` recover
exactly the markers pushed by `apply_style`/`remove_style`. -/
inductive Tag where
  | a (href : String)
  | b
  | i
  | u
  | s
  | code
  deriving DecidableEq, Repr

/-- One fragment of a page buffer: a literal fragment (stored pre-escape,
post-whitespace-collapse), or one whole markup marker. -/
inductive Chunk where
  | str (raw : String)
  | openTag (t : Tag)
  | closeTag (t : Tag)
  deriving DecidableEq, Repr

/-- Embeds `docs.rs::Page`.  `text` is kept as the chunk sequence; the source's
`String` is `renderChunks text`. -/
structure Page where
  text : List Chunk
  page_keyboard : Option Row
  additionals : List (List Row)
  deriving DecidableEq, Repr

/-- The Unicode `White_Space` code points: the character class matched by
Rust's (Unicode-aware) regex `\s`. -/
def wsChar (c : Char) : Bool :=
  c = ' ' || c = '\t' || c = '\n' || c = '\x0b' || c = '\x0c' || c = '\r' ||
  c = '\x85' || c = '\xa0' || c = ' ' ||
  c = ' ' || c = ' ' || c = ' ' || c = ' ' ||
  c = ' ' || c = ' ' || c = ' ' || c = ' ' ||
  c = ' ' || c = ' ' || c = ' ' ||
  c = ' ' || c = ' ' || c = ' ' || c = ' ' || c = '　'

/-- Embeds the regex replacement of `\s+` by a single space on a character
list: every maximal run of whitespace characters becomes one single space.
The flag records whether the previous character belonged to a whitespace
run (in which case further whitespace extends the already-replaced run). -/
def collapseGo : Bool → List Char → List Char
  | _, [] => []
  | prevWs, c :: rest =>
    if wsChar c then
      if prevWs then collapseGo true rest
      else ' ' :: collapseGo true rest
    else c :: collapseGo false rest

/-- Embeds the regex replacement of `\s+` by a single space on a character
list. -/
def collapseChars (cs : List Char) : List Char :=
  collapseGo false cs

/-- Embeds the regex replacement of `\s+` by a single space on a string. -/
def collapseWs (t : String) : String :=
  String.mk (collapseChars t.data)

/-- Specification of the whitespace collapse: the output is the input with
every maximal run of whitespace characters replaced by one single space and
all other characters kept unchanged, in order. -/
inductive CollapseSpec : List Char → List Char → Prop where
  | nil : CollapseSpec [] []
  | ws (run rest out : List Char) (hne : run ≠ [])
      (hall : ∀ c ∈ run, wsChar c = true)
      (hmax : ∀ c, rest.head? = some c → wsChar c = false)
      (h : CollapseSpec rest out) : CollapseSpec (run ++ rest) (' ' :: out)
  | keep (c : Char) (rest out : List Char) (hc : wsChar c = false)
      (h : CollapseSpec rest out) : CollapseSpec (c :: rest) (c :: out)

/-- Modelled from the spec: the external telbot `ParseMode::HTML.escape`
applied to one character — §6 requires all literal text to be escaped for
the HTML markup markers before insertion. -/
def escChar (c : Char) : String :=
  if c = '&' then "&amp;"
  else if c = '<' then "&lt;"
  else if c = '>' then "&gt;"
  else String.singleton c

/-- Modelled from the spec: the external telbot `ParseMode::HTML.escape`. -/
def htmlEscape (t : String) : String :=
  t.data.foldl (fun acc c => acc ++ escChar c) ""

/-- Rust `str::len`: the UTF-8 byte length. -/
def utf8Len (t : String) : Nat :=
  t.data.foldl (fun n c => n + c.utf8Size) 0

/-- The open marker pushed by `apply_style` for each tag. -/
def tagOpen : Tag → String
  | .a href => "<a href=\"" ++ href ++ "\">"
  | .b => "<b>"
  | .i => "<i>"
  | .u => "<u>"
  | .s => "<s>"
  | .code => "<code>"

/-- The close marker pushed by `remove_style` (and by the Monospaced
suppression) for each tag. -/
def tagClose : Tag → String
  | .a _ => "</a>"
  | .b => "</b>"
  | .i => "</i>"
  | .u => "</u>"
  | .s => "</s>"
  | .code => "</code>"

/-- The rendered text of one chunk, exactly as the source pushes it into the
page `String`: literal fragments are HTML-escaped, markers are verbatim. -/
def chunkText : Chunk → String
  | .str raw => htmlEscape raw
  | .openTag t => tagOpen t
  | .closeTag t => tagClose t

/-- The rendered text of a buffer: the source's `String` contents. -/
def renderChunks (cs : List Chunk) : String :=
  cs.foldl (fun acc c => acc ++ chunkText c) ""

/-- The raw length of one chunk: the count the writer's `written` counter
tracks for it (markers are never counted, literal fragments count their
pre-escape UTF-8 bytes). -/
def chunkRaw : Chunk → Nat
  | .str raw => utf8Len raw
  | .openTag _ => 0
  | .closeTag _ => 0

/-- The raw (tracked) length of a buffer. -/
def rawLen (cs : List Chunk) : Nat :=
  (cs.map chunkRaw).sum

/-- The state of `AutoPaginateWriter`.  `styles` stores the currently open
styles with the MOST recently opened at the head (the source `Vec` pushes
and pops at the end and iterates with `.rev()` for closing). -/
@[ext]
structure WriterState where
  pages : List Page
  buffer : List Chunk
  styles : List Tag
  in_code : Bool
  limit : Nat
  written : Nat
  begin_page : Nat
  deriving Repr

/-- Embeds `AutoPaginateWriter::new`: fresh buffer and style context over an
existing page list, with `begin_page` at the current page count and the
default budget of 1000. -/
def writerNew (pages : List Page) : WriterState :=
  ⟨pages, [], [], false, 1000, 0, pages.length⟩

/-- Embeds `AutoPaginateWriter::write_str`: collapse whitespace outside code mode,
count the pre-escape bytes, push the escaped text. -/
def writeStr (st : WriterState) (t : String) : WriterState :=
  let t' := if st.in_code then t else collapseWs t
  { st with written := st.written + utf8Len t',
            buffer := st.buffer ++ [Chunk.str t'] }

/-- Embeds `AutoPaginateWriter::apply_style`.  In code mode all styles are ignored;
a link with unresolvable href is dropped; Monospaced emits the close marker
of every tracked style (most recent first) without popping and opens
`<code>`. -/
def applyStyle (resolve : String → Option String) (st : WriterState)
    (sty : TextStyle) : WriterState :=
  if st.in_code then st
  else
    match sty with
    | .link href =>
      match resolve href with
      | some url =>
        let tag := Tag.a (url.replace "\"" "\\\"")
        { st with buffer := st.buffer ++ [Chunk.openTag tag],
                  styles := tag :: st.styles }
      | none => st
    | .bold =>
      { st with buffer := st.buffer ++ [Chunk.openTag Tag.b],
                styles := Tag.b :: st.styles }
    | .italic =>
      { st with buffer := st.buffer ++ [Chunk.openTag Tag.i],
                styles := Tag.i :: st.styles }
    | .underline =>
      { st with buffer := st.buffer ++ [Chunk.openTag Tag.u],
                styles := Tag.u :: st.styles }
    | .strikethrough =>
      { st with buffer := st.buffer ++ [Chunk.openTag Tag.s],
                styles := Tag.s :: st.styles }
    | .monospaced =>
      { st with buffer := st.buffer ++ st.styles.map Chunk.closeTag
                  ++ [Chunk.openTag Tag.code],
                in_code := true }

/-- Embeds `AutoPaginateWriter::remove_style`.  In code mode: leave code mode,
close `<code>`, re-emit the open markers of the suppressed styles in their
original (oldest-first) order; otherwise pop and close the most recently
opened style, a no-op on an empty stack. -/
def removeStyle (st : WriterState) : WriterState :=
  if st.in_code then
    { st with in_code := false,
              buffer := st.buffer ++ [Chunk.closeTag Tag.code]
                ++ st.styles.reverse.map Chunk.openTag }
  else
    match st.styles with
    | [] => st
    | t :: rest =>
      { st with styles := rest, buffer := st.buffer ++ [Chunk.closeTag t] }

/-- Embeds `AutoPaginateWriter::line_break`: append a line break and count it, but
only while the tracked length is still below the budget. -/
def lineBreak (st : WriterState) : WriterState :=
  if st.written < st.limit then
    { st with buffer := st.buffer ++ [Chunk.str "\n"],
              written := st.written + 1 }
  else st

/-- One step of the `write_title` loop (images and tables are skipped). -/
def titleOne (resolve : String → Option String) (st : WriterState)
    (p : TextPart) : WriterState :=
  match p with
  | .text t => writeStr st t
  | .image _ => st
  | .table => st
  | .beginStyle sty => applyStyle resolve st sty
  | .endStyle => removeStyle st

/-- The `write_title` loop body over a whole run. -/
def titleGo (resolve : String → Option String) (st : WriterState)
    (parts : List TextPart) : WriterState :=
  parts.foldl (titleOne resolve) st

/-- Embeds `AutoPaginateWriter::write_title`: render the title run in an isolated
(empty, non-code) style context, then restore the ambient context. -/
def writeTitle (resolve : String → Option String) (st : WriterState)
    (title : List TextPart) : WriterState :=
  let st1 := titleGo resolve { st with styles := [], in_code := false } title
  { st1 with styles := st.styles, in_code := st.in_code }

/-- One step of the `write` loop: images and tables become links written as
"(image)"/"(table)" (the table link targets the base url itself). -/
def writeOne (resolve : String → Option String) (base : String)
    (st : WriterState) (p : TextPart) : WriterState :=
  match p with
  | .text t => writeStr st t
  | .image src =>
    removeStyle (writeStr (applyStyle resolve st (.link src)) "(image)")
  | .table =>
    removeStyle (writeStr (applyStyle resolve st (.link base)) "(table)")
  | .beginStyle sty => applyStyle resolve st sty
  | .endStyle => removeStyle st

/-- Embeds `AutoPaginateWriter::write` over a whole run. -/
def write (resolve : String → Option String) (base : String)
    (st : WriterState) (parts : List TextPart) : WriterState :=
  parts.foldl (writeOne resolve base) st

/-- The `Paragraph::List` inner loop: bullet-prefix every run, line break
before every run but the first. -/
def writeListItems (resolve : String → Option String) (base : String) :
    WriterState → Nat → List (List TextPart) → WriterState
  | st, _, [] => st
  | st, i, item :: rest =>
    let st1 := if 0 < i then lineBreak st else st
    let st2 := write resolve base (writeStr st1 "• ") item
    writeListItems resolve base st2 (i + 1) rest

/-- The unit renderer of `write_paragraphs`: the `match paragraph` body. -/
def renderParagraph (resolve : String → Option String) (base : String)
    (st : WriterState) (p : Paragraph) : WriterState :=
  match p with
  | .text run => write resolve base st run
  | .list items => writeListItems resolve base st 0 items
  | .code run =>
    removeStyle (write resolve base (applyStyle resolve st .monospaced) run)

/-- The unit renderer of `write_item_rows`: name run, line break, summary
run. -/
def renderRow (resolve : String → Option String) (base : String)
    (st : WriterState) (r : ItemRow) : WriterState :=
  write resolve base (lineBreak (write resolve base st r.name)) r.summary

/-- One iteration of the accumulation loop shared by `write_paragraphs` and
`write_item_rows`, generic in the unit renderer `f`.  `wp` is the unit
counter (`written_p`/`written_rows`).  Returns the new state and counter. -/
def unitStep {U : Type} (f : WriterState → U → WriterState)
    (resolve : String → Option String) (title : List TextPart)
    (st : WriterState) (wp : Nat) (u : U) : WriterState × Nat :=
  let prev_buf := st.buffer
  let prev_written := st.written
  let st1 : WriterState := { st with buffer := [], written := 0 }
  let st2 := if wp = 0 then lineBreak (lineBreak (writeTitle resolve st1 title)) else st1
  let st3 := f st2 u
  if 0 < wp then
    if st3.limit < st3.written + prev_written + 1 then
      let st4 : WriterState :=
        { st3 with pages := st3.pages ++ [⟨prev_buf, none, []⟩], buffer := [] }
      let st5 := lineBreak (lineBreak (writeTitle resolve st4 title))
      ({ st5 with buffer := st5.buffer ++ st3.buffer }, 1)
    else
      let st4 := lineBreak { st3 with buffer := prev_buf }
      ({ st4 with buffer := st4.buffer ++ st3.buffer,
                  written := st4.written + prev_written + 1 }, wp + 1)
  else (st3, wp + 1)

/-- The accumulation loop over all units. -/
def unitLoop {U : Type} (f : WriterState → U → WriterState)
    (resolve : String → Option String) (title : List TextPart) :
    WriterState → Nat → List U → WriterState
  | st, _, [] => st
  | st, wp, u :: rest =>
    let p := unitStep f resolve title st wp u
    unitLoop f resolve title p.1 p.2 rest

/-- Embeds `AutoPaginateWriter::new_page`: seal a non-empty buffer as a page. -/
def newPage (st : WriterState) : WriterState :=
  if (renderChunks st.buffer).isEmpty then st
  else { st with buffer := [],
                 pages := st.pages ++ [⟨st.buffer, none, []⟩] }

/-- Embeds `AutoPaginateWriter::write_paragraphs`. -/
def write_paragraphs (resolve : String → Option String) (base : String)
    (st : WriterState) (title : List TextPart) (ps : List Paragraph) :
    WriterState :=
  unitLoop (fun s u => renderParagraph resolve base s u) resolve title
    (newPage st) 0 ps

/-- Embeds `AutoPaginateWriter::write_item_rows`. -/
def write_item_rows (resolve : String → Option String) (base : String)
    (st : WriterState) (title : List TextPart) (rows : List ItemRow) :
    WriterState :=
  unitLoop (fun s r => renderRow resolve base s r) resolve title
    (newPage st) 0 rows

/-- The sequential navigation row `finalize` attaches to the page at
absolute index `i` of a section of `len` pages starting at `bp`. -/
def navRow (bp len i : Nat) : Row :=
  let showing := i - bp
  if showing = 0 then
    [⟨"🏠 1 / " ++ toString len, "dummy"⟩,
     ⟨"2 >", toString (bp + 1)⟩]
  else if showing = len - 1 then
    [⟨"< " ++ toString (len - 1), toString (i - 1)⟩,
     ⟨"🏠 " ++ toString (i + 1) ++ " / " ++ toString len, toString bp⟩]
  else
    [⟨"< " ++ toString showing, toString (i - 1)⟩,
     ⟨"🏠 " ++ toString (showing + 1) ++ " / " ++ toString len, toString bp⟩,
     ⟨toString (showing + 2) ++ " >", toString (i + 1)⟩]

/-- The page list after `finalize` has flushed a non-empty buffer as the
last page. -/
def flushedPages (st : WriterState) : List Page :=
  if (renderChunks st.buffer).isEmpty then st.pages
  else st.pages ++ [⟨st.buffer, none, []⟩]

/-- Embeds `AutoPaginateWriter::finalize`: flush a non-empty buffer as the last
page, then, if this section produced more than one page, attach the
sequential navigation row to each of its pages. -/
def finalize (st : WriterState) : List Page :=
  let pages := flushedPages st
  let len := pages.length - st.begin_page
  if 1 < len then
    pages.mapIdx (fun i p =>
      if st.begin_page ≤ i then
        { p with page_keyboard := some (navRow st.begin_page len i) }
      else p)
  else pages

/-- Embeds `Page::build_keyboard`: the sequential row (if any) followed by the
rows of the selected additional group (if any). -/
def buildKeyboard (p : Page) (index : Nat) : Option (List Row) :=
  match p.page_keyboard with
  | some pk => some (pk :: (p.additionals.getD index []))
  | none =>
    match p.additionals[index]? with
    | some rows =>
      match rows with
      | [] => none
      | one :: rest => some (one :: rest)
    | none => none

/-- Embeds `add_additional_autopage`: append the link row to the last group while
it holds fewer than 3 rows, otherwise start a new group. -/
def add_additional_autopage (additionals : List (List Row)) (row : Row) :
    List (List Row) :=
  match additionals.getLast? with
  | some last_page =>
    if 3 ≤ last_page.length then additionals ++ [[row]]
    else additionals.dropLast ++ [last_page ++ [row]]
  | none => [[row]]

/-- The group-switch row `add_additional_pager` appends to group `i` of
`len` groups. -/
def pagerRow (len i : Nat) : Row :=
  if i = 0 then
    [⟨"↓", "x" ++ toString (i + 1)⟩]
  else if i = len - 1 then
    [⟨"↑", "x" ++ toString (i - 1)⟩]
  else
    [⟨"↓", "x" ++ toString (i + 1)⟩, ⟨"↑", "x" ++ toString (i - 1)⟩]

/-- Embeds `add_additional_pager`: when more than one group exists, append to each
group a row of group-switch buttons. -/
def add_additional_pager (additionals : List (List Row)) : List (List Row) :=
  if 1 < additionals.length then
    additionals.mapIdx (fun i g => g ++ [pagerRow additionals.length i])
  else additionals

/-- Embeds `text_parts_to_plain` loop state step: collapse whitespace outside code
spans, keep text verbatim inside; `depth`/`inCode` mirror the source's
counters (which may go negative on unbalanced input, hence `Int`). -/
def plainStep (acc : String × Int × Int) (p : TextPart) : String × Int × Int :=
  let (buffer, depth, inCode) := acc
  match p with
  | .text t =>
    (buffer ++ (if 0 < inCode then t else collapseWs t), depth, inCode)
  | .image _ => (buffer, depth, inCode)
  | .table => (buffer, depth, inCode)
  | .beginStyle sty =>
    let depth' := depth + 1
    (buffer, depth', if sty = .monospaced then depth' else inCode)
  | .endStyle =>
    (buffer, depth - 1, if inCode = depth then 0 else inCode)

/-- Embeds `text_parts_to_plain`: the plain-text rendering used for button
labels. -/
def text_parts_to_plain (parts : List TextPart) : String :=
  (parts.foldl plainStep ("", 0, 0)).1

/-- The "» Main" back link attached to every page of a tabular listing. -/
def mainRow : Row := [⟨"» Main", "0"⟩]

/-- The main-section part of `build_documentation`: declaration, title,
description sections, finalize. -/
def buildMain (resolve : String → Option String) (base : String)
    (doc : Document) : List Page :=
  let w0 := writerNew []
  let w1 :=
    match doc.declaration with
    | some decl =>
      write resolve base (lineBreak (lineBreak (writeTitle resolve w0 doc.title))) decl
    | none => w0
  let w2 := if doc.description.isEmpty then writeTitle resolve w1 doc.title else w1
  let w3 := doc.description.foldl
    (fun w sec =>
      write_paragraphs resolve base w (sec.heading.getD doc.title) sec.contents)
    w2
  finalize w3

/-- The item-listing part of `build_documentation`: for every table listing,
paginate its rows with a fresh writer over the shared page list, attach the
"» Main" group to each of its pages, and collect a jump link into the main
additional groups. -/
def buildItems (resolve : String → Option String) (base : String) :
    List Page → List (List Row) → List ItemList → List Page × List (List Row)
  | pages, adds, [] => (pages, adds)
  | pages, adds, il :: rest =>
    match il.kind with
    | .table rows =>
      let page_num := pages.length
      let pages' := finalize (write_item_rows resolve base (writerNew pages) il.heading rows)
      let pages'' := pages'.mapIdx (fun i p =>
        if page_num ≤ i then { p with additionals := p.additionals ++ [[mainRow]] } else p)
      let adds' := add_additional_autopage adds
        [⟨text_parts_to_plain il.heading, toString page_num⟩]
      buildItems resolve base pages'' adds' rest
    | .fields => buildItems resolve base pages adds rest
    | .impls => buildItems resolve base pages adds rest

/-- Embeds `build_documentation`: main section pages, then listing pages, then the
finalized additional groups copied onto every main-section page. -/
def build_documentation (resolve : String → Option String) (base : String)
    (doc : Document) : List Page :=
  let pages := buildMain resolve base doc
  let main_end := pages.length
  let pr := buildItems resolve base pages [] doc.items
  let adds := add_additional_pager pr.2
  pr.1.mapIdx (fun i p => if i < main_end then { p with additionals := adds } else p)

/-- Rust `usize::from_str` on an already sign-stripped digit string. -/
def parseDigits (cs : List Char) : Option Nat :=
  if cs = [] then none
  else if cs.all (fun c => c.isDigit) then
    some (cs.foldl (fun n c => n * 10 + (c.toNat - 48)) 0)
  else none

/-- Rust `str::parse::<usize>()`: optional leading `+`, at least one ASCII
digit, value below `2 ^ 64`. -/
def parseUsize (t : String) : Option Nat :=
  let cs := match t.data with
    | c :: rest => if c = '+' then rest else t.data
    | [] => t.data
  match parseDigits cs with
  | some n => if n < 2 ^ 64 then some n else none
  | none => none

/-- Rust `str::get(1..)`: drop the first character when it is a one-byte
character (the source only ever applies this to ASCII-leading payloads). -/
def strGet1 (t : String) : Option String :=
  match t.data with
  | [] => none
  | c :: rest => if c.utf8Size = 1 then some (String.mk rest) else none

/-- The observable effect of `on_callback` on an established session:
either the message text is replaced by another page (group selection 0),
or only the keyboard is replaced, or nothing is sent. -/
inductive CallbackEffect where
  | editText (pageIdx : Nat) (kb : Option (List Row))
  | editMarkup (kb : List Row)
  | noEffect
  deriving DecidableEq, Repr

/-- Embeds `on_callback` (src/main.rs), given the cached document pages and the
session's current page, on payload `data`. -/
def on_callback (doc : List Page) (sessionPage : Nat) (data : Option String) :
    CallbackEffect :=
  match data.bind parseUsize with
  | some index =>
    match doc[index]? with
    | some page => .editText index (buildKeyboard page 0)
    | none => .noEffect
  | none =>
    match (data.bind strGet1).bind parseUsize with
    | some index =>
      match doc[sessionPage]? with
      | some page =>
        match buildKeyboard page index with
        | some kb => .editMarkup kb
        | none => .noEffect
      | none => .noEffect
    | none => .noEffect


/-! ### Definitions for the markup-balance analysis -/

/-- The tag token of a chunk, if any: `true` marks an open marker. -/
def chunkTok : Chunk → Option (Bool × Tag)
  | .str _ => none
  | .openTag t => some (true, t)
  | .closeTag t => some (false, t)

/-- The sequence of tag tokens of a buffer. -/
def tagSeq (cs : List Chunk) : List (Bool × Tag) :=
  cs.filterMap chunkTok

/-- Dyck-style tag matching: process the token sequence against a stack of
currently open tags (most recent at the head); `none` on a close that does
not match the innermost open tag. -/
def checkTags : List Tag → List (Bool × Tag) → Option (List Tag)
  | stk, [] => some stk
  | stk, (true, t) :: rest => checkTags (t :: stk) rest
  | stk, (false, t) :: rest =>
    match stk with
    | [] => none
    | t2 :: stk2 => if t = t2 then checkTags stk2 rest else none

/-- A buffer has fully nested, fully closed markup: the tag tokens match up
with no dangling open tag. -/
def balancedChunks (cs : List Chunk) : Prop :=
  checkTags [] (tagSeq cs) = some []

/-- The tags currently open in the buffer according to the writer state:
inside code mode exactly the code tag, otherwise the tracked styles. -/
def openCtx (st : WriterState) : List Tag :=
  if st.in_code then [Tag.code] else st.styles

/-- The writer invariant: matching the buffer's tag tokens from an empty
stack leaves exactly the currently open context. -/
def Inv (st : WriterState) : Prop :=
  checkTags [] (tagSeq st.buffer) = some (openCtx st)

/-- The style-nesting measure: tracked styles plus one for code mode. -/
def hMeasure (st : WriterState) : Nat :=
  st.styles.length + (if st.in_code then 1 else 0)

/-- A run is balanced when, starting from nesting depth `d`, every EndStyle
has a matching earlier BeginStyle and the final depth is zero. -/
def balFrom : Nat → List TextPart → Bool
  | d, [] => d == 0
  | d, TextPart.beginStyle _ :: rest => balFrom (d + 1) rest
  | d, TextPart.endStyle :: rest =>
    match d with
    | 0 => false
    | d2 + 1 => balFrom d2 rest
  | d, _ :: rest => balFrom d rest

/-- All runs of a paragraph are balanced. -/
def parBalanced : Paragraph → Bool
  | .text run => balFrom 0 run
  | .list items => items.all (balFrom 0)
  | .code run => balFrom 0 run

/-- Both runs of an item row are balanced. -/
def rowBalanced (r : ItemRow) : Bool :=
  balFrom 0 r.name && balFrom 0 r.summary

/-- An optional run is balanced when present. -/
def runBalancedOpt : Option (List TextPart) → Bool
  | none => true
  | some run => balFrom 0 run

/-- All runs of a description section are balanced. -/
def sectionBalanced (sec : DocSection) : Bool :=
  runBalancedOpt sec.heading && sec.contents.all parBalanced

/-- All runs of an item listing are balanced. -/
def itemListBalanced (il : ItemList) : Bool :=
  balFrom 0 il.heading &&
  (match il.kind with
   | .table rows => rows.all rowBalanced
   | .fields => true
   | .impls => true)

/-- Every run contained in the document is balanced (the spec's input
contract). -/
def docBalanced (doc : Document) : Bool :=
  balFrom 0 doc.title && runBalancedOpt doc.declaration &&
  doc.description.all sectionBalanced && doc.items.all itemListBalanced

/-! ### Definitions for the page-chain analysis -/

/-- The writer step raises `written` by at least the raw length it appends
to the buffer. -/
def RawOk (g : WriterState → WriterState) : Prop :=
  ∀ st, rawLen (g st).buffer + st.written ≤ rawLen st.buffer + (g st).written

/-- The writer step never touches the page list, the budget or the section
start. -/
def ShapeOk (g : WriterState → WriterState) : Prop :=
  ∀ st, (g st).pages = st.pages ∧ (g st).limit = st.limit ∧
    (g st).begin_page = st.begin_page

/-- The writer step only appends to the buffer, what it appends does not
depend on the buffer contents, and no other output field depends on the
buffer contents. -/
def FrameOk (g : WriterState → WriterState) : Prop :=
  ∀ st, (g st).buffer = st.buffer ++ (g { st with buffer := [] }).buffer ∧
    { g st with buffer := [] } = { g { st with buffer := [] } with buffer := [] }

/-- The writer step preserves the markup invariant. -/
def InvOk (g : WriterState → WriterState) : Prop :=
  ∀ st, Inv st → Inv (g st)

/-- A chunk sequence is the scratch render of the unit `u`: the buffer the
unit renderer produces from some state with an empty buffer (the loop
resets the buffer before rendering each unit). -/
def IsScratch {U : Type} (f : WriterState → U → WriterState) (u : U)
    (c : List Chunk) : Prop :=
  ∃ st : WriterState, st.buffer = [] ∧ c = (f st u).buffer

/-- A number is the scratch length of the unit `u`: the `written` counter
the unit renderer produces from some state with empty buffer and zero
counter (the state the loop resets to before each unit). -/
def ScratchW {U : Type} (f : WriterState → U → WriterState) (u : U)
    (w : Nat) : Prop :=
  ∃ st : WriterState, st.buffer = [] ∧ st.written = 0 ∧ w = (f st u).written

/-- A chunk sequence is the title render: the buffer `write_title` produces
into an empty buffer. -/
def IsTitleChunk (resolve : String → Option String) (title : List TextPart)
    (c : List Chunk) : Prop :=
  ∃ st : WriterState, st.buffer = [] ∧ c = (writeTitle resolve st title).buffer

/-- An optional line break: what one `line_break` call appends (nothing
once the budget is reached). -/
def IsBreakOpt (c : List Chunk) : Prop :=
  c = [] ∨ c = [Chunk.str "
"]

/-- The chunk sequence consisting of the whole scratch renders of the given
units in order, joined by single line breaks — the unit-atomic page body. -/
inductive UnitsChain {U : Type} (f : WriterState → U → WriterState) :
    List U → List Chunk → Prop where
  | single (u : U) (s : List Chunk) : IsScratch f u s → UnitsChain f [u] s
  | cons (u : U) (s : List Chunk) (rest : List U) (c : List Chunk) :
      IsScratch f u s → rest ≠ [] → UnitsChain f rest c →
      UnitsChain f (u :: rest) (s ++ Chunk.str "
" :: c)

/-- A page text for the given block of units: the title render, the two
(possibly budget-suppressed) title line breaks, then the unit chain. -/
def PageOf {U : Type} (f : WriterState → U → WriterState)
    (resolve : String → Option String) (title : List TextPart)
    (block : List U) (text : List Chunk) : Prop :=
  ∃ t b1 b2 c, IsTitleChunk resolve title t ∧ IsBreakOpt b1 ∧ IsBreakOpt b2 ∧
    UnitsChain f block c ∧ text = t ++ (b1 ++ (b2 ++ c))

/-- The full shape of one accumulation run: the input units are partitioned
into consecutive non-empty blocks; every sealed page is the page render of
one whole block, carries no keyboard and no additionals yet, and records a
tracked length `wp` that bounds its raw content (with the extra joining
breaks double-counted, hence the `+ block.length` slack) and stays within
the budget whenever the block holds at least two units; every page break
was forced: the scratch length of the next block's first unit plus the
sealed page's tracked length plus one joining break exceeds the budget;
the final block remains in the buffer with final counter `w`. -/
inductive BlockChain {U : Type} (f : WriterState → U → WriterState)
    (resolve : String → Option String) (title : List TextPart) (limit : Nat) :
    List (List U) → List Page → List Chunk → Nat → Prop where
  | nil (w : Nat) : BlockChain f resolve title limit [] [] [] w
  | last (b : List U) (buf : List Chunk) (w : Nat) :
      b ≠ [] → PageOf f resolve title b buf →
      rawLen buf + b.length ≤ w + 1 →
      (2 ≤ b.length → w + 1 ≤ limit + b.length) →
      BlockChain f resolve title limit [b] [] buf w
  | brk (b : List U) (p : Page) (b2 : List U) (blocks : List (List U))
      (pushed : List Page) (buf : List Chunk) (w wp sw : Nat) (u2 : U) :
      b ≠ [] → PageOf f resolve title b p.text →
      rawLen p.text + b.length ≤ wp + 1 →
      (2 ≤ b.length → wp + 1 ≤ limit + b.length) →
      p.page_keyboard = none → p.additionals = [] →
      b2.head? = some u2 → ScratchW f u2 sw → limit < sw + wp + 1 →
      BlockChain f resolve title limit (b2 :: blocks) pushed buf w →
      BlockChain f resolve title limit (b :: b2 :: blocks) (p :: pushed) buf w

/-- The balance invariant carried through the accumulation loop: every
sealed page is balanced, the in-progress buffer is balanced, and the style
context is closed (empty stack, not in code mode). -/
def GoodState (st : WriterState) : Prop :=
  (∀ p ∈ st.pages, balancedChunks p.text) ∧
  checkTags [] (tagSeq st.buffer) = some [] ∧
  st.styles = [] ∧ st.in_code = false

/-! ## General helper lemmas -/

theorem getElem?_mapIdx {α β : Type} (f : Nat → α → β) (l : List α) (i : Nat) :
    (l.mapIdx f)[i]? = (l[i]?).map (f i) := by
  by_cases h : i < l.length
  · have h' : i < (l.mapIdx f).length := by
      simp [List.length_mapIdx, h]
    rw [List.getElem?_eq_getElem h, List.getElem?_eq_getElem h']
    simp only [Option.map_some']
    have h2 := List.get_mapIdx l f i h
    simp only [List.get_eq_getElem] at h2
    rw [h2]
  · rw [List.getElem?_eq_none (by simpa [List.length_mapIdx] using Nat.le_of_not_lt h),
      List.getElem?_eq_none (Nat.le_of_not_lt h)]
    rfl

/-! ## Claim C4: Monospaced entry and exit -/

/-- Claim C4.  Entering Monospaced (outside code mode) emits the close
markers of every currently tracked style — most recently opened first, the
order the source's `.rev()` iteration produces — followed by the code open
marker, WITHOUT removing the tracked styles, and activates code mode; while
code mode is active, `apply_style` ignores every style; the matching
`remove_style` deactivates code mode, emits the code close marker and
re-emits the open markers of the suppressed styles in their original
(oldest-first) order, the stack itself staying untouched. -/
theorem monospaced_suppression :
    (∀ (resolve : String → Option String) (st : WriterState),
      st.in_code = false →
      applyStyle resolve st .monospaced =
        { st with buffer := st.buffer ++ st.styles.map Chunk.closeTag
                    ++ [Chunk.openTag Tag.code],
                  in_code := true }) ∧
    (∀ (resolve : String → Option String) (st : WriterState) (sty : TextStyle),
      st.in_code = true → applyStyle resolve st sty = st) ∧
    (∀ st : WriterState,
      st.in_code = true →
      removeStyle st =
        { st with in_code := false,
                  buffer := st.buffer ++ [Chunk.closeTag Tag.code]
                    ++ st.styles.reverse.map Chunk.openTag }) := by
  refine ⟨fun resolve st h => ?_, fun resolve st sty h => ?_, fun st h => ?_⟩
  · simp [applyStyle, h]
  · simp [applyStyle, h]
  · simp [removeStyle, h]

/-- Witness for C4 at a concrete state with one tracked Bold style. -/
theorem monospaced_suppression_witness :
    applyStyle (fun _ => none) ⟨[], [], [Tag.b], false, 1000, 0, 0⟩ .monospaced =
      { (⟨[], [], [Tag.b], false, 1000, 0, 0⟩ : WriterState) with
        buffer := [] ++ [Tag.b].map Chunk.closeTag ++ [Chunk.openTag Tag.code],
        in_code := true } ∧
    applyStyle (fun _ => none) ⟨[], [], [Tag.b], true, 1000, 0, 0⟩ .bold =
      ⟨[], [], [Tag.b], true, 1000, 0, 0⟩ ∧
    removeStyle ⟨[], [], [Tag.b], true, 1000, 0, 0⟩ =
      { (⟨[], [], [Tag.b], true, 1000, 0, 0⟩ : WriterState) with
        in_code := false,
        buffer := [] ++ [Chunk.closeTag Tag.code] ++ [Tag.b].reverse.map Chunk.openTag } :=
  ⟨monospaced_suppression.1 (fun _ => none) _ rfl,
   monospaced_suppression.2.1 (fun _ => none) _ .bold rfl,
   monospaced_suppression.2.2 _ rfl⟩

/-! ## Claim C7: additional grouping and group pager -/

/-- Claim C7.  A link row is appended to the current (last) additional
group exactly while that group holds fewer than 3 rows, otherwise a new
group is started; with more than one group, finalization appends to group 0
a next-only control row, to the last group a prev-only control row and to
every middle group a row with both, every group-switch payload being the
one-character prefix "x" followed by the decimal target group index. -/
theorem additional_grouping :
    (∀ (adds : List (List Row)) (row : Row) (g : List Row),
      adds.getLast? = some g → g.length < 3 →
      add_additional_autopage adds row = adds.dropLast ++ [g ++ [row]]) ∧
    (∀ (adds : List (List Row)) (row : Row) (g : List Row),
      adds.getLast? = some g → 3 ≤ g.length →
      add_additional_autopage adds row = adds ++ [[row]]) ∧
    (∀ row : Row, add_additional_autopage [] row = [[row]]) ∧
    (∀ adds : List (List Row), adds.length ≤ 1 → add_additional_pager adds = adds) ∧
    (∀ (adds : List (List Row)) (i : Nat) (g : List Row),
      1 < adds.length → adds[i]? = some g →
      (add_additional_pager adds)[i]? = some (g ++ [pagerRow adds.length i])) ∧
    (∀ len : Nat, pagerRow len 0 = [⟨"↓", "x" ++ toString (0 + 1)⟩]) ∧
    (∀ (len i : Nat), 0 < i → i = len - 1 →
      pagerRow len i = [⟨"↑", "x" ++ toString (i - 1)⟩]) ∧
    (∀ (len i : Nat), 0 < i → i ≠ len - 1 →
      pagerRow len i = [⟨"↓", "x" ++ toString (i + 1)⟩, ⟨"↑", "x" ++ toString (i - 1)⟩]) := by
  refine ⟨fun adds row g hg hlt => ?_, fun adds row g hg hle => ?_, fun row => ?_,
    fun adds h => ?_, fun adds i g h hi => ?_, fun len => ?_,
    fun len i h0 hl => ?_, fun len i h0 hl => ?_⟩
  · simp [add_additional_autopage, hg, Nat.not_le.mpr hlt]
  · simp [add_additional_autopage, hg, hle]
  · simp [add_additional_autopage]
  · simp [add_additional_pager, Nat.not_lt.mpr h]
  · simp only [add_additional_pager, if_pos h, getElem?_mapIdx, hi, Option.map_some']
  · simp [pagerRow]
  · subst hl
    simp [pagerRow, Nat.pos_iff_ne_zero.mp h0]
  · simp [pagerRow, Nat.pos_iff_ne_zero.mp h0, hl]

/-- Witness for C7 at concrete group lists. -/
theorem additional_grouping_witness :
    add_additional_autopage [[mainRow]] mainRow = [] ++ [[mainRow] ++ [mainRow]] ∧
    add_additional_autopage [[mainRow, mainRow, mainRow]] mainRow =
      [[mainRow, mainRow, mainRow]] ++ [[mainRow]] ∧
    add_additional_pager [[mainRow], [mainRow]] =
      [[mainRow] ++ [pagerRow 2 0], [mainRow] ++ [pagerRow 2 1]] := by
  refine ⟨?_, ?_, ?_⟩
  · have h := additional_grouping.1 [[mainRow]] mainRow [mainRow] (by decide) (by decide)
    simpa using h
  · exact additional_grouping.2.1 [[mainRow, mainRow, mainRow]] mainRow
      [mainRow, mainRow, mainRow] (by decide) (by decide)
  · have h0 := additional_grouping.2.2.2.2.1 [[mainRow], [mainRow]] 0 [mainRow]
      (by decide) (by decide)
    have h1 := additional_grouping.2.2.2.2.1 [[mainRow], [mainRow]] 1 [mainRow]
      (by decide) (by decide)
    have hlen : (add_additional_pager [[mainRow], [mainRow]]).length = 2 := by
      simp [add_additional_pager, List.length_mapIdx]
    match hp : add_additional_pager [[mainRow], [mainRow]] with
    | [a, b] =>
      rw [hp] at h0 h1
      simp only [List.getElem?_cons_zero, List.getElem?_cons_succ, Option.some_inj] at h0 h1
      rw [h0, h1]
      rfl
    | [] => rw [hp] at hlen; simp at hlen
    | [a] => rw [hp] at hlen; simp at hlen
    | a :: b :: c :: rest => rw [hp] at hlen; simp at hlen

/-! ## Claim C8: build_keyboard combination -/

/-- Claim C8.  The keyboard for page `p` and additional group `g` is the
sequential navigation row followed by group `g`'s rows when both exist,
whichever exists alone when only one exists, and nothing when neither the
navigation row nor any row of group `g` exists. -/
theorem build_keyboard_cases :
    ∀ (p : Page) (g : Nat),
    (∀ pk rows, p.page_keyboard = some pk → p.additionals[g]? = some rows →
      buildKeyboard p g = some (pk :: rows)) ∧
    (∀ pk, p.page_keyboard = some pk → p.additionals[g]? = none →
      buildKeyboard p g = some [pk]) ∧
    (∀ rows, p.page_keyboard = none → p.additionals[g]? = some rows → rows ≠ [] →
      buildKeyboard p g = some rows) ∧
    (p.page_keyboard = none → p.additionals[g]? = some [] →
      buildKeyboard p g = none) ∧
    (p.page_keyboard = none → p.additionals[g]? = none →
      buildKeyboard p g = none) := by
  intro p g
  refine ⟨fun pk rows hk ha => ?_, fun pk hk ha => ?_,
    fun rows hk ha hne => ?_, fun hk ha => ?_, fun hk ha => ?_⟩
  · simp [buildKeyboard, hk, List.getD, ha]
  · simp [buildKeyboard, hk, List.getD, ha]
  · match rows, hne with
    | one :: rest, _ => simp [buildKeyboard, hk, ha]
  · simp [buildKeyboard, hk, ha]
  · simp [buildKeyboard, hk, ha]

/-- Witness for C8 on concrete pages covering all five cases. -/
theorem build_keyboard_cases_witness :
    buildKeyboard ⟨[], some [⟨"n", "1"⟩], [[mainRow]]⟩ 0 = some ([⟨"n", "1"⟩] :: [mainRow]) ∧
    buildKeyboard ⟨[], some [⟨"n", "1"⟩], []⟩ 0 = some [[⟨"n", "1"⟩]] ∧
    buildKeyboard ⟨[], none, [[mainRow]]⟩ 0 = some [mainRow] ∧
    buildKeyboard ⟨[], none, [[]]⟩ 0 = none ∧
    buildKeyboard ⟨[], none, []⟩ 0 = none := by
  refine ⟨?_, ?_, ?_, ?_, ?_⟩
  · exact (build_keyboard_cases ⟨[], some [⟨"n", "1"⟩], [[mainRow]]⟩ 0).1 _ _ rfl rfl
  · exact (build_keyboard_cases ⟨[], some [⟨"n", "1"⟩], []⟩ 0).2.1 _ rfl rfl
  · exact (build_keyboard_cases ⟨[], none, [[mainRow]]⟩ 0).2.2.1 _ rfl rfl (by decide)
  · exact (build_keyboard_cases ⟨[], none, [[]]⟩ 0).2.2.2.1 rfl rfl
  · exact (build_keyboard_cases ⟨[], none, []⟩ 0).2.2.2.2 rfl rfl


/-! ## Helper lemmas for the whitespace collapse -/

theorem length_dropWhile_le' {α : Type} (p : α → Bool) :
    ∀ l : List α, (l.dropWhile p).length ≤ l.length
  | [] => Nat.le_refl _
  | a :: l => by
    rw [List.dropWhile_cons]
    split
    · exact Nat.le_trans (length_dropWhile_le' p l) (Nat.le_succ _)
    · exact Nat.le_refl _

theorem collapseGo_true_eq :
    ∀ l : List Char, collapseGo true l = collapseGo false (l.dropWhile wsChar)
  | [] => rfl
  | a :: l => by
    by_cases h : wsChar a
    · have h1 : collapseGo true (a :: l) = collapseGo true l := by
        simp [collapseGo, h]
      rw [h1, List.dropWhile_cons, if_pos h]
      exact collapseGo_true_eq l
    · have h1 : collapseGo true (a :: l) = a :: collapseGo false l := by
        simp [collapseGo, h]
      rw [h1, List.dropWhile_cons, if_neg h]
      simp [collapseGo, h]

theorem head?_dropWhile_not {α : Type} (p : α → Bool) :
    ∀ (l : List α) (a : α), (l.dropWhile p).head? = some a → p a = false
  | [], a => by intro h; simp [List.dropWhile] at h
  | b :: l, a => by
    rw [List.dropWhile_cons]
    split
    · exact head?_dropWhile_not p l a
    · intro h
      simp only [List.head?_cons, Option.some_inj] at h
      subst h
      simp_all

theorem mem_takeWhile_ws :
    ∀ (l : List Char) (c : Char), c ∈ l.takeWhile wsChar → wsChar c = true
  | [], c => by intro h; simp [List.takeWhile] at h
  | b :: l, c => by
    rw [List.takeWhile_cons]
    split
    · intro h
      rcases List.mem_cons.mp h with h | h
      · subst h; assumption
      · exact mem_takeWhile_ws l c h
    · intro h; simp at h

theorem collapseSpec_of : ∀ (n : Nat) (cs : List Char), cs.length ≤ n →
    CollapseSpec cs (collapseChars cs)
  | _, [], _ => CollapseSpec.nil
  | 0, c :: cs, h => absurd h (by simp)
  | n + 1, c :: cs, h => by
    by_cases hc : wsChar c
    · have hsplit : (c :: cs.takeWhile wsChar) ++ cs.dropWhile wsChar = c :: cs := by
        rw [List.cons_append, List.takeWhile_append_dropWhile]
      have hout : collapseChars (c :: cs) = ' ' :: collapseChars (cs.dropWhile wsChar) := by
        show collapseGo false (c :: cs) = _
        simp only [collapseGo, if_pos hc]
        rw [collapseGo_true_eq]
        rfl
      rw [hout, ← hsplit]
      refine CollapseSpec.ws _ _ _ (by simp) ?_ ?_ ?_
      · intro x hx
        rcases List.mem_cons.mp hx with hx | hx
        · subst hx; exact hc
        · exact mem_takeWhile_ws cs x hx
      · intro x hx
        exact head?_dropWhile_not wsChar cs x hx
      · exact collapseSpec_of n (cs.dropWhile wsChar)
          (Nat.le_trans (length_dropWhile_le' wsChar cs) (Nat.le_of_succ_le_succ h))
    · have hout : collapseChars (c :: cs) = c :: collapseChars cs := by
        show collapseGo false (c :: cs) = _
        simp only [collapseGo, hc, if_neg]
        rfl
      rw [hout]
      exact CollapseSpec.keep c cs _ (Bool.of_not_eq_true hc)
        (collapseSpec_of n cs (Nat.le_of_succ_le_succ h))

/-! ## Claim C10: whitespace normalisation -/

/-- Claim C10.  Literal text written outside a Monospaced span has every
maximal run of whitespace characters replaced by one single space before
insertion (`CollapseSpec` characterises that replacement), while literal
text written inside a Monospaced span is inserted with its characters — in
particular its whitespace — unchanged; the same collapse is applied by the
plain-text rendering used for button labels, and the HTML escape leaves
every whitespace character unchanged. -/
theorem whitespace_normalisation :
    (∀ (st : WriterState) (t : String), st.in_code = false →
      writeStr st t =
        { st with written := st.written + utf8Len (collapseWs t),
                  buffer := st.buffer ++ [Chunk.str (collapseWs t)] }) ∧
    (∀ (st : WriterState) (t : String), st.in_code = true →
      writeStr st t =
        { st with written := st.written + utf8Len t,
                  buffer := st.buffer ++ [Chunk.str t] }) ∧
    (∀ t : String, CollapseSpec t.data (collapseWs t).data) ∧
    (∀ (b : String) (d ic : Int) (t : String),
      plainStep (b, d, ic) (.text t) =
        (b ++ (if 0 < ic then t else collapseWs t), d, ic)) ∧
    (∀ c : Char, wsChar c = true → escChar c = String.singleton c) := by
  refine ⟨fun st t h => ?_, fun st t h => ?_, fun t => ?_, fun b d ic t => rfl,
    fun c h => ?_⟩
  · simp [writeStr, h]
  · simp [writeStr, h]
  · exact collapseSpec_of t.data.length t.data (Nat.le_refl _)
  · have h1 : c ≠ '&' := by rintro rfl; simp [wsChar] at h
    have h2 : c ≠ '<' := by rintro rfl; simp [wsChar] at h
    have h3 : c ≠ '>' := by rintro rfl; simp [wsChar] at h
    simp [escChar, h1, h2, h3]

/-- Witness for C10 at a concrete state and concrete strings. -/
theorem whitespace_normalisation_witness :
    writeStr ⟨[], [], [], false, 1000, 0, 0⟩ "a \t b" =
      { (⟨[], [], [], false, 1000, 0, 0⟩ : WriterState) with
        written := 0 + utf8Len (collapseWs "a \t b"),
        buffer := [] ++ [Chunk.str (collapseWs "a \t b")] } ∧
    writeStr ⟨[], [], [], true, 1000, 0, 0⟩ "a \t b" =
      { (⟨[], [], [], true, 1000, 0, 0⟩ : WriterState) with
        written := 0 + utf8Len "a \t b",
        buffer := [] ++ [Chunk.str "a \t b"] } ∧
    escChar ' ' = String.singleton ' ' :=
  ⟨whitespace_normalisation.1 _ "a \t b" rfl,
   whitespace_normalisation.2.1 _ "a \t b" rfl,
   whitespace_normalisation.2.2.2.2 ' ' (by decide)⟩


/-! ## Claim C9: callback payload protocol -/

theorem parseUsize_marker (rest : List Char) :
    parseUsize (String.mk ('x' :: rest)) = none := by
  have hx : ('x' : Char) = '+' ↔ False := by simp
  simp only [parseUsize, parseDigits]
  simp [List.all_cons, show ('x' : Char).isDigit = false from rfl]

/-- Claim C9.  In the callback handler: a payload that parses as a decimal
integer `n` edits the message to show the page at absolute index `n` with
the additional-group selection reset to 0; a payload of the one-character
marker `x` followed by a decimal integer `g` keeps the session's current
page and only replaces the keyboard with that page's keyboard for
additional group `g`; the sentinel payload "dummy" of the inert home button
is accepted and produces no effect at all. -/
theorem callback_protocol :
    ∀ (doc : List Page) (sp : Nat),
    (∀ (d : String) (n : Nat) (page : Page),
      parseUsize d = some n → doc[n]? = some page →
      on_callback doc sp (some d) = .editText n (buildKeyboard page 0)) ∧
    (∀ (rest : List Char) (g : Nat) (page : Page) (kb : List Row),
      parseUsize (String.mk rest) = some g →
      doc[sp]? = some page → buildKeyboard page g = some kb →
      on_callback doc sp (some (String.mk ('x' :: rest))) = .editMarkup kb) ∧
    on_callback doc sp (some "dummy") = .noEffect := by
  intro doc sp
  refine ⟨fun d n page hparse hpage => ?_, fun rest g page kb hparse hpage hkb => ?_, ?_⟩
  · simp [on_callback, hparse, hpage]
  · have h1 : parseUsize (String.mk ('x' :: rest)) = none := parseUsize_marker rest
    have h2 : strGet1 (String.mk ('x' :: rest)) = some (String.mk rest) := by
      simp [strGet1, show ('x' : Char).utf8Size = 1 from rfl]
    simp [on_callback, h1, h2, hparse, hpage, hkb]
  · have h1 : parseUsize "dummy" = none := by decide
    have h2 : strGet1 "dummy" = some "ummy" := by decide
    have h3 : parseUsize "ummy" = none := by decide
    simp [on_callback, h1, h2, h3, show "dummy".data = 'd' :: "ummy".data from rfl]

/-- Witness for C9 on a concrete two-page document. -/
theorem callback_protocol_witness :
    on_callback [⟨[], none, []⟩, ⟨[], none, [[mainRow]]⟩] 0 (some "1") =
      .editText 1 (buildKeyboard ⟨[], none, [[mainRow]]⟩ 0) ∧
    on_callback [⟨[], none, [[mainRow]]⟩] 0 (some (String.mk ('x' :: "0".data))) =
      .editMarkup [mainRow] ∧
    on_callback [⟨[], none, [[mainRow]]⟩] 0 (some "dummy") = .noEffect :=
  ⟨(callback_protocol [⟨[], none, []⟩, ⟨[], none, [[mainRow]]⟩] 0).1 "1" 1
      ⟨[], none, [[mainRow]]⟩ (by decide) rfl,
   (callback_protocol [⟨[], none, [[mainRow]]⟩] 0).2.1 "0".data 0
      ⟨[], none, [[mainRow]]⟩ [mainRow] (by decide) rfl (by decide),
   (callback_protocol [⟨[], none, [[mainRow]]⟩] 0).2.2⟩


/-! ## Claim C6: navigation payloads -/

/-- Claim C6 (amended).  Every navigation row `finalize` attaches is
`navRow` of the section's start, length and the page's absolute index; in
such a row every button's payload is the absolute target page index as a
decimal string — prev targets `i - 1`, next targets `i + 1`, and the home
button of every page AFTER the section's first targets the section's first
page `bp` — except the home button of the section's FIRST page, which
carries the fixed sentinel payload "dummy" (accepted as a no-op by the
callback handler). -/
theorem nav_payloads :
    (∀ (st : WriterState) (i : Nat) (p : Page),
      1 < (flushedPages st).length - st.begin_page →
      st.begin_page ≤ i →
      (flushedPages st)[i]? = some p →
      ∃ q, (finalize st)[i]? = some q ∧
        q.page_keyboard =
          some (navRow st.begin_page ((flushedPages st).length - st.begin_page) i) ∧
        q.text = p.text ∧ q.additionals = p.additionals) ∧
    (∀ (bp len i : Nat) (btn : Button), bp ≤ i → i < bp + len → 2 ≤ len →
      btn ∈ navRow bp len i →
      (i = bp ∧ btn.callback_data = "dummy") ∨
      (bp < i ∧ btn.callback_data = toString (i - 1)) ∨
      (i < bp + len - 1 ∧ btn.callback_data = toString (i + 1)) ∨
      (bp < i ∧ btn.callback_data = toString bp)) := by
  constructor
  · intro st i p hlen hbp hget
    have hfin : (finalize st)[i]? =
        some { p with page_keyboard := some (navRow st.begin_page ((flushedPages st).length - st.begin_page) i) } := by
      simp only [finalize, if_pos hlen, getElem?_mapIdx, hget, Option.map_some', hbp, if_pos]
    exact ⟨_, hfin, rfl, rfl, rfl⟩
  · intro bp len i btn hbp hupper hlen hmem
    by_cases h0 : i - bp = 0
    · have hib : i = bp := by omega
      simp only [navRow, h0, if_pos rfl] at hmem
      rcases List.mem_cons.mp hmem with h | h
      · subst h; exact Or.inl ⟨hib, rfl⟩
      · rcases List.mem_cons.mp h with h | h
        · subst h
          refine Or.inr (Or.inr (Or.inl ⟨by omega, ?_⟩))
          have : bp + 1 = i + 1 := by omega
          rw [this]
        · simp at h
    · by_cases hlast : i - bp = len - 1
      · simp only [navRow, if_neg h0, if_pos hlast] at hmem
        rcases List.mem_cons.mp hmem with h | h
        · subst h; exact Or.inr (Or.inl ⟨by omega, rfl⟩)
        · rcases List.mem_cons.mp h with h | h
          · subst h; exact Or.inr (Or.inr (Or.inr ⟨by omega, rfl⟩))
          · simp at h
      · simp only [navRow, if_neg h0, if_neg hlast] at hmem
        rcases List.mem_cons.mp hmem with h | h
        · subst h; exact Or.inr (Or.inl ⟨by omega, rfl⟩)
        · rcases List.mem_cons.mp h with h | h
          · subst h; exact Or.inr (Or.inr (Or.inr ⟨by omega, rfl⟩))
          · rcases List.mem_cons.mp h with h | h
            · subst h; exact Or.inr (Or.inr (Or.inl ⟨by omega, rfl⟩))
            · simp at h

/-- Witness for C6 (amended) at the last page of a fresh two-page
section. -/
theorem nav_payloads_witness :
    (0 : Nat) < 1 ∧
    (⟨"🏠 2 / 2", "0"⟩ : Button).callback_data = toString (0 : Nat) :=
  ⟨Nat.zero_lt_one, by
    have h := nav_payloads.2 0 2 1 ⟨"🏠 2 / 2", "0"⟩ (by omega) (by omega)
      (by omega) (by decide)
    rcases h with ⟨h1, _⟩ | ⟨_, h2⟩ | ⟨h1, _⟩ | ⟨_, h2⟩
    · omega
    · exact h2
    · omega
    · exact h2⟩

/-- Counterexample to C6 as stated: in the navigation rows of a concrete
two-page section built from two 600-character paragraphs, the home button
of the second (last) page carries payload "0" — the decimal absolute index
of the section's first page — and NOT the fixed sentinel "dummy" that the
claim asserts for the home button of every page. -/
theorem nav_payloads_counterexample :
    (finalize (write_paragraphs (fun s => some s) "https://e/" (writerNew [])
        [TextPart.text "t"]
        [Paragraph.text [TextPart.text (String.mk (List.replicate 600 'a'))],
         Paragraph.text [TextPart.text (String.mk (List.replicate 600 'b'))]])).map
      (fun p => p.page_keyboard.map (fun row => row.map Button.callback_data)) =
      [some ["dummy", "1"], some ["0", "0"]] ∧
    ("0" : String) ≠ "dummy" := by
  constructor
  · decide
  · decide


/-! ## Claim C5: navigation structure and the home-label slip -/

/-- Claim C5, failing input.  For a section that does not start at absolute
page index 0 (here: one pre-existing page, so `begin_page = 1`) and that
produces two pages, the LAST page's home button is labelled with the
absolute page number: "🏠 3 / 2" — "page 3 of 2" — although the claim (and
the spec's navigation table, which the first-page and interior-page
branches follow) requires the section-relative "🏠 2 / 2".  The code takes
`i + 1` (absolute) instead of `showing + 1` (section-relative) in the
last-page branch of `finalize`. -/
theorem nav_home_label_bug :
    (finalize (write_item_rows (fun s => some s) "https://e/"
        (writerNew [⟨[Chunk.str "x"], none, []⟩])
        [TextPart.text "t"]
        [⟨[TextPart.text (String.mk (List.replicate 600 'n'))], [TextPart.text "s"]⟩,
         ⟨[TextPart.text (String.mk (List.replicate 600 'm'))], [TextPart.text "s"]⟩])).map
      (fun p => p.page_keyboard.map (fun row => row.map Button.label)) =
      [none, some ["🏠 1 / 2", "2 >"], some ["< 1", "🏠 3 / 2"]] ∧
    ("🏠 3 / 2" : String) ≠ "🏠 2 / 2" := by
  constructor
  · decide
  · decide


/-! ## Helper lemmas: tag matching and raw lengths -/

theorem tagSeq_append (a b : List Chunk) : tagSeq (a ++ b) = tagSeq a ++ tagSeq b := by
  simp [tagSeq, List.filterMap_append]

theorem tagSeq_str (t : String) : tagSeq [Chunk.str t] = [] := rfl

theorem checkTags_append :
    ∀ (xs ys : List (Bool × Tag)) (stk : List Tag),
    checkTags stk (xs ++ ys) = (checkTags stk xs).bind (fun s => checkTags s ys)
  | [], ys, stk => rfl
  | (true, t) :: xs, ys, stk => by
    simp only [List.cons_append, checkTags]
    exact checkTags_append xs ys (t :: stk)
  | (false, t) :: xs, ys, stk => by
    simp only [List.cons_append, checkTags]
    match stk with
    | [] => rfl
    | t2 :: stk2 =>
      by_cases h : t = t2
      · simp only [if_pos h]
        exact checkTags_append xs ys stk2
      · simp only [if_neg h]
        rfl

theorem checkTags_closes :
    ∀ stk : List Tag, checkTags stk (stk.map (fun t => (false, t))) = some []
  | [] => rfl
  | t :: stk => by
    simp only [List.map_cons, checkTags, if_pos rfl]
    exact checkTags_closes stk

theorem checkTags_opens :
    ∀ (l stk : List Tag),
    checkTags stk (l.map (fun t => (true, t))) = some (l.reverse ++ stk)
  | [], stk => rfl
  | t :: l, stk => by
    simp only [List.map_cons, checkTags, List.reverse_cons, List.append_assoc,
      List.cons_append, List.nil_append]
    exact checkTags_opens l (t :: stk)

theorem rawLen_append (a b : List Chunk) : rawLen (a ++ b) = rawLen a + rawLen b := by
  simp [rawLen]

theorem rawLen_str (t : String) : rawLen [Chunk.str t] = utf8Len t := by
  simp [rawLen, chunkRaw]

theorem rawLen_closes (l : List Tag) : rawLen (l.map Chunk.closeTag) = 0 := by
  induction l with
  | nil => rfl
  | cons t l ih => simp [rawLen, chunkRaw] at ih ⊢; exact ih

theorem rawLen_opens (l : List Tag) : rawLen (l.map Chunk.openTag) = 0 := by
  induction l with
  | nil => rfl
  | cons t l ih => simp [rawLen, chunkRaw] at ih ⊢; exact ih


/-! ## Helper lemmas: tag sequences of marker runs -/

theorem tagSeq_closes (l : List Tag) :
    tagSeq (l.map Chunk.closeTag) = l.map (fun t => (false, t)) := by
  induction l with
  | nil => rfl
  | cons t l ih => simp [tagSeq, chunkTok] at ih ⊢; exact ih

theorem tagSeq_opens (l : List Tag) :
    tagSeq (l.map Chunk.openTag) = l.map (fun t => (true, t)) := by
  induction l with
  | nil => rfl
  | cons t l ih => simp [tagSeq, chunkTok] at ih ⊢; exact ih

theorem checkTags_open_cons (t : Tag) (stk : List Tag) (rest : List (Bool × Tag)) :
    checkTags stk ((true, t) :: rest) = checkTags (t :: stk) rest := rfl

theorem checkTags_close_cons (t : Tag) (stk : List Tag) (rest : List (Bool × Tag)) :
    checkTags (t :: stk) ((false, t) :: rest) = checkTags stk rest := by
  simp [checkTags]

theorem sum_chunkRaw_closes : ∀ l : List Tag, (l.map (chunkRaw ∘ Chunk.closeTag)).sum = 0
  | [] => rfl
  | t :: l => by
    simp only [List.map_cons, List.sum_cons, Function.comp, chunkRaw]
    simp [sum_chunkRaw_closes l]

theorem sum_chunkRaw_opens : ∀ l : List Tag, (l.map (chunkRaw ∘ Chunk.openTag)).sum = 0
  | [] => rfl
  | t :: l => by
    simp only [List.map_cons, List.sum_cons, Function.comp, chunkRaw]
    simp [sum_chunkRaw_opens l]

/-! ## Per-operation lemmas -/

theorem shapeOk_writeStr (t : String) : ShapeOk (fun st => writeStr st t) := by
  intro st
  refine ⟨rfl, rfl, rfl⟩

theorem rawOk_writeStr (t : String) : RawOk (fun st => writeStr st t) := by
  intro st
  simp only [writeStr, rawLen_append, rawLen_str]
  omega

theorem frameOk_writeStr (t : String) : FrameOk (fun st => writeStr st t) := by
  intro st
  exact ⟨rfl, rfl⟩

theorem invOk_writeStr (t : String) : InvOk (fun st => writeStr st t) := by
  intro st h
  simp only [Inv, writeStr, tagSeq_append, tagSeq_str, List.append_nil] at h ⊢
  exact h

theorem h_writeStr (st : WriterState) (t : String) :
    hMeasure (writeStr st t) = hMeasure st := rfl

theorem shapeOk_lineBreak : ShapeOk lineBreak := by
  intro st
  by_cases h : st.written < st.limit <;> simp [lineBreak, h]

theorem rawOk_lineBreak : RawOk lineBreak := by
  intro st
  have hn : utf8Len "\n" = 1 := rfl
  by_cases h : st.written < st.limit
  · simp only [lineBreak, if_pos h, rawLen_append, rawLen_str, hn]
    omega
  · simp only [lineBreak, if_neg h]
    omega

theorem frameOk_lineBreak : FrameOk lineBreak := by
  intro st
  by_cases h : st.written < st.limit
  · constructor <;> simp [lineBreak, h]
  · constructor <;> simp [lineBreak, h]

theorem invOk_lineBreak : InvOk lineBreak := by
  intro st h
  by_cases hc : st.written < st.limit
  · simp only [Inv, lineBreak, if_pos hc, tagSeq_append, tagSeq_str,
      List.append_nil] at h ⊢
    exact h
  · simpa [lineBreak, hc] using h

theorem h_lineBreak (st : WriterState) : hMeasure (lineBreak st) = hMeasure st := by
  by_cases h : st.written < st.limit <;> simp [lineBreak, hMeasure, h]

theorem shapeOk_applyStyle (resolve : String → Option String) (sty : TextStyle) :
    ShapeOk (fun st => applyStyle resolve st sty) := by
  intro st
  by_cases h : st.in_code
  · simp [applyStyle, h]
  · cases sty with
    | link href => cases hr : resolve href <;> simp [applyStyle, h, hr]
    | bold => simp [applyStyle, h]
    | italic => simp [applyStyle, h]
    | underline => simp [applyStyle, h]
    | strikethrough => simp [applyStyle, h]
    | monospaced => simp [applyStyle, h]

theorem rawOk_applyStyle (resolve : String → Option String) (sty : TextStyle) :
    RawOk (fun st => applyStyle resolve st sty) := by
  intro st
  by_cases h : st.in_code
  · simp [applyStyle, h]
  · cases sty with
    | link href =>
      cases hr : resolve href <;>
        simp [applyStyle, h, hr, rawLen_append, rawLen, chunkRaw]
    | bold => simp [applyStyle, h, rawLen_append, rawLen, chunkRaw]
    | italic => simp [applyStyle, h, rawLen_append, rawLen, chunkRaw]
    | underline => simp [applyStyle, h, rawLen_append, rawLen, chunkRaw]
    | strikethrough => simp [applyStyle, h, rawLen_append, rawLen, chunkRaw]
    | monospaced =>
      simp [applyStyle, h, rawLen_append, rawLen, chunkRaw, sum_chunkRaw_closes]

theorem frameOk_applyStyle (resolve : String → Option String) (sty : TextStyle) :
    FrameOk (fun st => applyStyle resolve st sty) := by
  intro st
  by_cases h : st.in_code
  · constructor <;> simp [applyStyle, h]
  · cases sty with
    | link href =>
      cases hr : resolve href <;> constructor <;> simp [applyStyle, h, hr]
    | bold => constructor <;> simp [applyStyle, h]
    | italic => constructor <;> simp [applyStyle, h]
    | underline => constructor <;> simp [applyStyle, h]
    | strikethrough => constructor <;> simp [applyStyle, h]
    | monospaced => constructor <;> simp [applyStyle, h]

theorem invOk_applyStyle (resolve : String → Option String) (sty : TextStyle) :
    InvOk (fun st => applyStyle resolve st sty) := by
  intro st hinv
  by_cases h : st.in_code
  · simpa [applyStyle, h] using hinv
  · have hctx : openCtx st = st.styles := by simp [openCtx, h]
    cases sty with
    | link href =>
      cases hr : resolve href with
      | none => simpa [applyStyle, h, hr] using hinv
      | some url =>
        simp only [Inv, applyStyle, h, hr, if_neg, Bool.false_eq_true,
          if_false] at hinv ⊢
        simp only [tagSeq_append, checkTags_append, hinv, hctx,
          Option.bind_some] at hinv ⊢
        simp [tagSeq, chunkTok, checkTags, openCtx, h]
    | bold =>
      simp only [Inv, applyStyle, h, Bool.false_eq_true, if_false] at hinv ⊢
      simp only [tagSeq_append, checkTags_append, hinv, hctx, Option.bind_some]
      simp [tagSeq, chunkTok, checkTags, openCtx, h]
    | italic =>
      simp only [Inv, applyStyle, h, Bool.false_eq_true, if_false] at hinv ⊢
      simp only [tagSeq_append, checkTags_append, hinv, hctx, Option.bind_some]
      simp [tagSeq, chunkTok, checkTags, openCtx, h]
    | underline =>
      simp only [Inv, applyStyle, h, Bool.false_eq_true, if_false] at hinv ⊢
      simp only [tagSeq_append, checkTags_append, hinv, hctx, Option.bind_some]
      simp [tagSeq, chunkTok, checkTags, openCtx, h]
    | strikethrough =>
      simp only [Inv, applyStyle, h, Bool.false_eq_true, if_false] at hinv ⊢
      simp only [tagSeq_append, checkTags_append, hinv, hctx, Option.bind_some]
      simp [tagSeq, chunkTok, checkTags, openCtx, h]
    | monospaced =>
      simp only [Inv, applyStyle, h, Bool.false_eq_true, if_false] at hinv ⊢
      rw [List.append_assoc, tagSeq_append, checkTags_append, hinv, hctx,
        tagSeq_append, tagSeq_closes, Option.some_bind, checkTags_append,
        checkTags_closes, Option.some_bind]
      simp [tagSeq, chunkTok, checkTags, openCtx]

theorem h_applyStyle (resolve : String → Option String) (st : WriterState)
    (sty : TextStyle) :
    hMeasure (applyStyle resolve st sty) ≤ hMeasure st + 1 := by
  by_cases h : st.in_code
  · simp [applyStyle, h]
  · cases sty with
    | link href =>
      cases hr : resolve href
      · simp [applyStyle, h, hr, hMeasure]
      · simp [applyStyle, h, hr, hMeasure]
    | bold => simp [applyStyle, h, hMeasure]
    | italic => simp [applyStyle, h, hMeasure]
    | underline => simp [applyStyle, h, hMeasure]
    | strikethrough => simp [applyStyle, h, hMeasure]
    | monospaced => simp [applyStyle, h, hMeasure]

theorem shapeOk_removeStyle : ShapeOk removeStyle := by
  intro st
  by_cases h : st.in_code
  · simp [removeStyle, h]
  · match hs : st.styles with
    | [] => simp [removeStyle, h, hs]
    | t :: rest => simp [removeStyle, h, hs]

theorem rawOk_removeStyle : RawOk removeStyle := by
  intro st
  by_cases h : st.in_code
  · simp [removeStyle, h, rawLen_append, rawLen, chunkRaw, List.sum_reverse,
      sum_chunkRaw_opens]
  · match hs : st.styles with
    | [] => simp [removeStyle, h, hs]
    | t :: rest => simp [removeStyle, h, hs, rawLen_append, rawLen, chunkRaw]

theorem frameOk_removeStyle : FrameOk removeStyle := by
  intro st
  by_cases h : st.in_code
  · constructor <;> simp [removeStyle, h]
  · match hs : st.styles with
    | [] => constructor <;> simp [removeStyle, h, hs]
    | t :: rest => constructor <;> simp [removeStyle, h, hs]

theorem invOk_removeStyle : InvOk removeStyle := by
  intro st hinv
  by_cases h : st.in_code
  · have hctx : openCtx st = [Tag.code] := by simp [openCtx, h]
    simp only [Inv, removeStyle, h, if_true] at hinv ⊢
    rw [List.append_assoc, tagSeq_append, checkTags_append, hinv, hctx,
      Option.some_bind]
    have h1 : tagSeq ([Chunk.closeTag Tag.code] ++ st.styles.reverse.map Chunk.openTag) =
        (false, Tag.code) :: (st.styles.reverse.map (fun t => (true, t))) := by
      rw [tagSeq_append, tagSeq_opens]
      rfl
    rw [h1, checkTags_close_cons, checkTags_opens]
    simp [openCtx, h]
  · match hs : st.styles with
    | [] => simpa [removeStyle, h, hs] using hinv
    | t :: rest =>
      have hctx : openCtx st = t :: rest := by simp [openCtx, h, hs]
      simp only [Inv, removeStyle, h, Bool.false_eq_true, if_false, hs] at hinv ⊢
      rw [tagSeq_append, checkTags_append, hinv, hctx]
      have h1 : tagSeq [Chunk.closeTag t] = [(false, t)] := rfl
      rw [h1]
      simp [checkTags, openCtx, h]

theorem h_removeStyle (st : WriterState) :
    hMeasure (removeStyle st) = hMeasure st - 1 := by
  by_cases h : st.in_code
  · simp [removeStyle, h, hMeasure]
  · match hs : st.styles with
    | [] => simp [removeStyle, h, hs, hMeasure]
    | t :: rest => simp [removeStyle, h, hs, hMeasure]


/-! ## Composition and fold closure of the step properties -/

theorem rawOk_comp {g1 g2 : WriterState → WriterState}
    (h1 : RawOk g1) (h2 : RawOk g2) : RawOk (fun st => g2 (g1 st)) := by
  intro st
  have a := h1 st
  have b := h2 (g1 st)
  show rawLen (g2 (g1 st)).buffer + st.written ≤ rawLen st.buffer + (g2 (g1 st)).written
  omega

theorem shapeOk_comp {g1 g2 : WriterState → WriterState}
    (h1 : ShapeOk g1) (h2 : ShapeOk g2) : ShapeOk (fun st => g2 (g1 st)) := by
  intro st
  obtain ⟨a1, a2, a3⟩ := h1 st
  obtain ⟨b1, b2, b3⟩ := h2 (g1 st)
  exact ⟨by rw [b1, a1], by rw [b2, a2], by rw [b3, a3]⟩

theorem invOk_comp {g1 g2 : WriterState → WriterState}
    (h1 : InvOk g1) (h2 : InvOk g2) : InvOk (fun st => g2 (g1 st)) :=
  fun _ h => h2 _ (h1 _ h)

theorem frameOk_comp {g1 g2 : WriterState → WriterState}
    (h1 : FrameOk g1) (h2 : FrameOk g2) : FrameOk (fun st => g2 (g1 st)) := by
  intro st
  obtain ⟨a1, a2⟩ := h1 st
  obtain ⟨b1, b2⟩ := h2 (g1 st)
  obtain ⟨c1, c2⟩ := h2 (g1 { st with buffer := [] })
  constructor
  · rw [b1, a1, a2, c1, List.append_assoc]
  · rw [b2, a2, ← c2]

theorem shapeOk_id : ShapeOk (fun st => st) := fun _ => ⟨rfl, rfl, rfl⟩

theorem rawOk_id : RawOk (fun st => st) := fun _ => Nat.le_refl _

theorem frameOk_id : FrameOk (fun st => st) :=
  fun st => ⟨(List.append_nil st.buffer).symm, rfl⟩

theorem invOk_id : InvOk (fun st => st) := fun _ h => h

theorem rawOk_foldl {α : Type} (step : WriterState → α → WriterState)
    (h : ∀ a, RawOk (fun st => step st a)) :
    ∀ l : List α, RawOk (fun st => l.foldl step st)
  | [] => fun _ => Nat.le_refl _
  | a :: l => by
    intro st
    have hc := rawOk_comp (h a) (rawOk_foldl step h l) st
    simpa [List.foldl_cons] using hc

theorem shapeOk_foldl {α : Type} (step : WriterState → α → WriterState)
    (h : ∀ a, ShapeOk (fun st => step st a)) :
    ∀ l : List α, ShapeOk (fun st => l.foldl step st)
  | [] => shapeOk_id
  | a :: l => by
    intro st
    have hc := shapeOk_comp (h a) (shapeOk_foldl step h l) st
    simpa [List.foldl_cons] using hc

theorem frameOk_foldl {α : Type} (step : WriterState → α → WriterState)
    (h : ∀ a, FrameOk (fun st => step st a)) :
    ∀ l : List α, FrameOk (fun st => l.foldl step st)
  | [] => frameOk_id
  | a :: l => by
    intro st
    have hc := frameOk_comp (h a) (frameOk_foldl step h l) st
    simpa [List.foldl_cons] using hc

theorem invOk_foldl {α : Type} (step : WriterState → α → WriterState)
    (h : ∀ a, InvOk (fun st => step st a)) :
    ∀ l : List α, InvOk (fun st => l.foldl step st)
  | [] => invOk_id
  | a :: l => by
    intro st
    have hc := invOk_comp (h a) (invOk_foldl step h l) st
    simpa [List.foldl_cons] using hc

/-! ## The step properties for the compound writer operations -/

theorem shapeOk_writeOne (resolve : String → Option String) (base : String)
    (p : TextPart) : ShapeOk (fun st => writeOne resolve base st p) := by
  cases p with
  | text t => exact shapeOk_writeStr t
  | image src =>
    exact shapeOk_comp (shapeOk_comp (shapeOk_applyStyle resolve (.link src))
      (shapeOk_writeStr "(image)")) shapeOk_removeStyle
  | table =>
    exact shapeOk_comp (shapeOk_comp (shapeOk_applyStyle resolve (.link base))
      (shapeOk_writeStr "(table)")) shapeOk_removeStyle
  | beginStyle sty => exact shapeOk_applyStyle resolve sty
  | endStyle => exact shapeOk_removeStyle

theorem rawOk_writeOne (resolve : String → Option String) (base : String)
    (p : TextPart) : RawOk (fun st => writeOne resolve base st p) := by
  cases p with
  | text t => exact rawOk_writeStr t
  | image src =>
    exact rawOk_comp (rawOk_comp (rawOk_applyStyle resolve (.link src))
      (rawOk_writeStr "(image)")) rawOk_removeStyle
  | table =>
    exact rawOk_comp (rawOk_comp (rawOk_applyStyle resolve (.link base))
      (rawOk_writeStr "(table)")) rawOk_removeStyle
  | beginStyle sty => exact rawOk_applyStyle resolve sty
  | endStyle => exact rawOk_removeStyle

theorem frameOk_writeOne (resolve : String → Option String) (base : String)
    (p : TextPart) : FrameOk (fun st => writeOne resolve base st p) := by
  cases p with
  | text t => exact frameOk_writeStr t
  | image src =>
    exact frameOk_comp (frameOk_comp (frameOk_applyStyle resolve (.link src))
      (frameOk_writeStr "(image)")) frameOk_removeStyle
  | table =>
    exact frameOk_comp (frameOk_comp (frameOk_applyStyle resolve (.link base))
      (frameOk_writeStr "(table)")) frameOk_removeStyle
  | beginStyle sty => exact frameOk_applyStyle resolve sty
  | endStyle => exact frameOk_removeStyle

theorem invOk_writeOne (resolve : String → Option String) (base : String)
    (p : TextPart) : InvOk (fun st => writeOne resolve base st p) := by
  cases p with
  | text t => exact invOk_writeStr t
  | image src =>
    exact invOk_comp (invOk_comp (invOk_applyStyle resolve (.link src))
      (invOk_writeStr "(image)")) invOk_removeStyle
  | table =>
    exact invOk_comp (invOk_comp (invOk_applyStyle resolve (.link base))
      (invOk_writeStr "(table)")) invOk_removeStyle
  | beginStyle sty => exact invOk_applyStyle resolve sty
  | endStyle => exact invOk_removeStyle

theorem shapeOk_write (resolve : String → Option String) (base : String)
    (parts : List TextPart) : ShapeOk (fun st => write resolve base st parts) :=
  shapeOk_foldl _ (shapeOk_writeOne resolve base) parts

theorem rawOk_write (resolve : String → Option String) (base : String)
    (parts : List TextPart) : RawOk (fun st => write resolve base st parts) :=
  rawOk_foldl _ (rawOk_writeOne resolve base) parts

theorem frameOk_write (resolve : String → Option String) (base : String)
    (parts : List TextPart) : FrameOk (fun st => write resolve base st parts) :=
  frameOk_foldl _ (frameOk_writeOne resolve base) parts

theorem invOk_write (resolve : String → Option String) (base : String)
    (parts : List TextPart) : InvOk (fun st => write resolve base st parts) :=
  invOk_foldl _ (invOk_writeOne resolve base) parts

theorem shapeOk_titleOne (resolve : String → Option String) (p : TextPart) :
    ShapeOk (fun st => titleOne resolve st p) := by
  cases p with
  | text t => exact shapeOk_writeStr t
  | image src => exact shapeOk_id
  | table => exact shapeOk_id
  | beginStyle sty => exact shapeOk_applyStyle resolve sty
  | endStyle => exact shapeOk_removeStyle

theorem rawOk_titleOne (resolve : String → Option String) (p : TextPart) :
    RawOk (fun st => titleOne resolve st p) := by
  cases p with
  | text t => exact rawOk_writeStr t
  | image src => exact rawOk_id
  | table => exact rawOk_id
  | beginStyle sty => exact rawOk_applyStyle resolve sty
  | endStyle => exact rawOk_removeStyle

theorem frameOk_titleOne (resolve : String → Option String) (p : TextPart) :
    FrameOk (fun st => titleOne resolve st p) := by
  cases p with
  | text t => exact frameOk_writeStr t
  | image src => exact frameOk_id
  | table => exact frameOk_id
  | beginStyle sty => exact frameOk_applyStyle resolve sty
  | endStyle => exact frameOk_removeStyle

theorem invOk_titleOne (resolve : String → Option String) (p : TextPart) :
    InvOk (fun st => titleOne resolve st p) := by
  cases p with
  | text t => exact invOk_writeStr t
  | image src => exact invOk_id
  | table => exact invOk_id
  | beginStyle sty => exact invOk_applyStyle resolve sty
  | endStyle => exact invOk_removeStyle

theorem shapeOk_titleGo (resolve : String → Option String)
    (parts : List TextPart) : ShapeOk (fun st => titleGo resolve st parts) :=
  shapeOk_foldl _ (shapeOk_titleOne resolve) parts

theorem rawOk_titleGo (resolve : String → Option String)
    (parts : List TextPart) : RawOk (fun st => titleGo resolve st parts) :=
  rawOk_foldl _ (rawOk_titleOne resolve) parts

theorem frameOk_titleGo (resolve : String → Option String)
    (parts : List TextPart) : FrameOk (fun st => titleGo resolve st parts) :=
  frameOk_foldl _ (frameOk_titleOne resolve) parts

theorem invOk_titleGo (resolve : String → Option String)
    (parts : List TextPart) : InvOk (fun st => titleGo resolve st parts) :=
  invOk_foldl _ (invOk_titleOne resolve) parts


/-! ## Record-projection helpers for buffer-cleared states -/

theorem clearbuf_proj {A B : WriterState}
    (h : ({ A with buffer := [] } : WriterState) = { B with buffer := [] }) :
    A.pages = B.pages ∧ A.styles = B.styles ∧ A.in_code = B.in_code ∧
    A.limit = B.limit ∧ A.written = B.written ∧ A.begin_page = B.begin_page := by
  have h1 := congrArg WriterState.pages h
  have h2 := congrArg WriterState.styles h
  have h3 := congrArg WriterState.in_code h
  have h4 := congrArg WriterState.limit h
  have h5 := congrArg WriterState.written h
  have h6 := congrArg WriterState.begin_page h
  exact ⟨h1, h2, h3, h4, h5, h6⟩

theorem clearbuf_mk {A B : WriterState}
    (hp : A.pages = B.pages) (hs : A.styles = B.styles)
    (hic : A.in_code = B.in_code) (hl : A.limit = B.limit)
    (hw : A.written = B.written) (hbp : A.begin_page = B.begin_page) :
    ({ A with buffer := [] } : WriterState) = { B with buffer := [] } := by
  ext1 <;> simp [hp, hs, hic, hl, hw, hbp]

/-! ## Step properties for writeTitle, list items, paragraphs and rows -/

theorem shapeOk_writeTitle (resolve : String → Option String)
    (title : List TextPart) : ShapeOk (fun st => writeTitle resolve st title) := by
  intro st
  obtain ⟨p1, p2, p3⟩ :=
    shapeOk_titleGo resolve title { st with styles := [], in_code := false }
  exact ⟨p1, p2, p3⟩

theorem rawOk_writeTitle (resolve : String → Option String)
    (title : List TextPart) : RawOk (fun st => writeTitle resolve st title) := by
  intro st
  exact rawOk_titleGo resolve title { st with styles := [], in_code := false }

theorem frameOk_writeTitle (resolve : String → Option String)
    (title : List TextPart) : FrameOk (fun st => writeTitle resolve st title) := by
  intro st
  obtain ⟨f1, f2⟩ :=
    frameOk_titleGo resolve title { st with styles := [], in_code := false }
  obtain ⟨q1, q2, q3, q4, q5, q6⟩ := clearbuf_proj f2
  exact ⟨f1, clearbuf_mk q1 rfl rfl q4 q5 q6⟩

theorem h_writeTitle (resolve : String → Option String) (st : WriterState)
    (title : List TextPart) :
    hMeasure (writeTitle resolve st title) = hMeasure st := rfl

theorem shapeOk_ite (p : Prop) [Decidable p] {g : WriterState → WriterState}
    (h : ShapeOk g) : ShapeOk (fun st => if p then g st else st) := by
  by_cases hp : p
  · simpa [hp] using h
  · simpa [hp] using shapeOk_id

theorem rawOk_ite (p : Prop) [Decidable p] {g : WriterState → WriterState}
    (h : RawOk g) : RawOk (fun st => if p then g st else st) := by
  by_cases hp : p
  · simpa [hp] using h
  · simpa [hp] using rawOk_id

theorem frameOk_ite (p : Prop) [Decidable p] {g : WriterState → WriterState}
    (h : FrameOk g) : FrameOk (fun st => if p then g st else st) := by
  by_cases hp : p
  · simpa [hp] using h
  · simpa [hp] using frameOk_id

theorem invOk_ite (p : Prop) [Decidable p] {g : WriterState → WriterState}
    (h : InvOk g) : InvOk (fun st => if p then g st else st) := by
  by_cases hp : p
  · simpa [hp] using h
  · simpa [hp] using invOk_id

theorem shapeOk_writeListItems (resolve : String → Option String) (base : String) :
    ∀ (items : List (List TextPart)) (i : Nat),
    ShapeOk (fun st => writeListItems resolve base st i items)
  | [], _ => shapeOk_id
  | item :: rest, i => by
    have h1 : ShapeOk (fun st => if 0 < i then lineBreak st else st) :=
      shapeOk_ite _ shapeOk_lineBreak
    have h3 := shapeOk_comp
      (shapeOk_comp (shapeOk_comp h1 (shapeOk_writeStr "• "))
        (shapeOk_write resolve base item))
      (shapeOk_writeListItems resolve base rest (i + 1))
    intro st
    have h4 := h3 st
    simpa [writeListItems] using h4

theorem rawOk_writeListItems (resolve : String → Option String) (base : String) :
    ∀ (items : List (List TextPart)) (i : Nat),
    RawOk (fun st => writeListItems resolve base st i items)
  | [], _ => rawOk_id
  | item :: rest, i => by
    have h1 : RawOk (fun st => if 0 < i then lineBreak st else st) :=
      rawOk_ite _ rawOk_lineBreak
    have h3 := rawOk_comp
      (rawOk_comp (rawOk_comp h1 (rawOk_writeStr "• "))
        (rawOk_write resolve base item))
      (rawOk_writeListItems resolve base rest (i + 1))
    intro st
    have h4 := h3 st
    simpa [writeListItems] using h4

theorem frameOk_writeListItems (resolve : String → Option String) (base : String) :
    ∀ (items : List (List TextPart)) (i : Nat),
    FrameOk (fun st => writeListItems resolve base st i items)
  | [], _ => frameOk_id
  | item :: rest, i => by
    have h1 : FrameOk (fun st => if 0 < i then lineBreak st else st) :=
      frameOk_ite _ frameOk_lineBreak
    have h3 := frameOk_comp
      (frameOk_comp (frameOk_comp h1 (frameOk_writeStr "• "))
        (frameOk_write resolve base item))
      (frameOk_writeListItems resolve base rest (i + 1))
    intro st
    have h4 := h3 st
    simpa [writeListItems] using h4

theorem invOk_writeListItems (resolve : String → Option String) (base : String) :
    ∀ (items : List (List TextPart)) (i : Nat),
    InvOk (fun st => writeListItems resolve base st i items)
  | [], _ => invOk_id
  | item :: rest, i => by
    have h1 : InvOk (fun st => if 0 < i then lineBreak st else st) :=
      invOk_ite _ invOk_lineBreak
    have h3 := invOk_comp
      (invOk_comp (invOk_comp h1 (invOk_writeStr "• "))
        (invOk_write resolve base item))
      (invOk_writeListItems resolve base rest (i + 1))
    intro st
    intro hst
    have h4 := h3 st hst
    simpa [writeListItems] using h4

theorem shapeOk_renderParagraph (resolve : String → Option String) (base : String)
    (u : Paragraph) : ShapeOk (fun st => renderParagraph resolve base st u) := by
  cases u with
  | text run => exact shapeOk_write resolve base run
  | list items => exact shapeOk_writeListItems resolve base items 0
  | code run =>
    exact shapeOk_comp (shapeOk_comp (shapeOk_applyStyle resolve .monospaced)
      (shapeOk_write resolve base run)) shapeOk_removeStyle

theorem rawOk_renderParagraph (resolve : String → Option String) (base : String)
    (u : Paragraph) : RawOk (fun st => renderParagraph resolve base st u) := by
  cases u with
  | text run => exact rawOk_write resolve base run
  | list items => exact rawOk_writeListItems resolve base items 0
  | code run =>
    exact rawOk_comp (rawOk_comp (rawOk_applyStyle resolve .monospaced)
      (rawOk_write resolve base run)) rawOk_removeStyle

theorem frameOk_renderParagraph (resolve : String → Option String) (base : String)
    (u : Paragraph) : FrameOk (fun st => renderParagraph resolve base st u) := by
  cases u with
  | text run => exact frameOk_write resolve base run
  | list items => exact frameOk_writeListItems resolve base items 0
  | code run =>
    exact frameOk_comp (frameOk_comp (frameOk_applyStyle resolve .monospaced)
      (frameOk_write resolve base run)) frameOk_removeStyle

theorem invOk_renderParagraph (resolve : String → Option String) (base : String)
    (u : Paragraph) : InvOk (fun st => renderParagraph resolve base st u) := by
  cases u with
  | text run => exact invOk_write resolve base run
  | list items => exact invOk_writeListItems resolve base items 0
  | code run =>
    exact invOk_comp (invOk_comp (invOk_applyStyle resolve .monospaced)
      (invOk_write resolve base run)) invOk_removeStyle

theorem shapeOk_renderRow (resolve : String → Option String) (base : String)
    (r : ItemRow) : ShapeOk (fun st => renderRow resolve base st r) :=
  shapeOk_comp (shapeOk_comp (shapeOk_write resolve base r.name) shapeOk_lineBreak)
    (shapeOk_write resolve base r.summary)

theorem rawOk_renderRow (resolve : String → Option String) (base : String)
    (r : ItemRow) : RawOk (fun st => renderRow resolve base st r) :=
  rawOk_comp (rawOk_comp (rawOk_write resolve base r.name) rawOk_lineBreak)
    (rawOk_write resolve base r.summary)

theorem frameOk_renderRow (resolve : String → Option String) (base : String)
    (r : ItemRow) : FrameOk (fun st => renderRow resolve base st r) :=
  frameOk_comp (frameOk_comp (frameOk_write resolve base r.name) frameOk_lineBreak)
    (frameOk_write resolve base r.summary)

theorem invOk_renderRow (resolve : String → Option String) (base : String)
    (r : ItemRow) : InvOk (fun st => renderRow resolve base st r) :=
  invOk_comp (invOk_comp (invOk_write resolve base r.name) invOk_lineBreak)
    (invOk_write resolve base r.summary)


/-! ## Style-depth bounds for balanced runs -/

theorem hMeasure_zero {st : WriterState} (h : hMeasure st = 0) :
    st.styles = [] ∧ st.in_code = false := by
  by_cases hic : st.in_code
  · simp [hMeasure, hic] at h
  · simp only [hMeasure, hic, if_neg, if_false] at h
    simp only [Bool.not_eq_true] at hic
    exact ⟨List.length_eq_zero.mp (by omega), hic⟩

theorem h_write_bal (resolve : String → Option String) (base : String) :
    ∀ (parts : List TextPart) (d : Nat) (st : WriterState),
    balFrom d parts = true →
    hMeasure (write resolve base st parts) ≤ hMeasure st - d
  | [], d, st, h => by
    have hd : d = 0 := by simpa [balFrom] using h
    subst hd
    simp [write]
  | TextPart.text t :: parts, d, st, h => by
    have h' : balFrom d parts = true := by simpa [balFrom] using h
    have ih := h_write_bal resolve base parts d (writeStr st t) h'
    have hw : hMeasure (writeStr st t) = hMeasure st := h_writeStr st t
    simp only [write, List.foldl_cons] at ih ⊢
    calc hMeasure (List.foldl (writeOne resolve base) (writeStr st t) parts)
        ≤ hMeasure (writeStr st t) - d := ih
      _ = hMeasure st - d := by rw [hw]
  | TextPart.image src :: parts, d, st, h => by
    have h' : balFrom d parts = true := by simpa [balFrom] using h
    set st2 := removeStyle (writeStr (applyStyle resolve st (.link src)) "(image)") with hst2
    have ih := h_write_bal resolve base parts d st2 h'
    have h1 : hMeasure (applyStyle resolve st (.link src)) ≤ hMeasure st + 1 :=
      h_applyStyle resolve st (.link src)
    have h2 : hMeasure st2 ≤ hMeasure st := by
      rw [hst2, h_removeStyle, h_writeStr]
      omega
    simp only [write, List.foldl_cons] at ih ⊢
    have h3 : hMeasure st2 - d ≤ hMeasure st - d := Nat.sub_le_sub_right h2 d
    exact le_trans ih h3
  | TextPart.table :: parts, d, st, h => by
    have h' : balFrom d parts = true := by simpa [balFrom] using h
    set st2 := removeStyle (writeStr (applyStyle resolve st (.link base)) "(table)") with hst2
    have ih := h_write_bal resolve base parts d st2 h'
    have h1 : hMeasure (applyStyle resolve st (.link base)) ≤ hMeasure st + 1 :=
      h_applyStyle resolve st (.link base)
    have h2 : hMeasure st2 ≤ hMeasure st := by
      rw [hst2, h_removeStyle, h_writeStr]
      omega
    simp only [write, List.foldl_cons] at ih ⊢
    have h3 : hMeasure st2 - d ≤ hMeasure st - d := Nat.sub_le_sub_right h2 d
    exact le_trans ih h3
  | TextPart.beginStyle sty :: parts, d, st, h => by
    have h' : balFrom (d + 1) parts = true := by simpa [balFrom] using h
    have ih := h_write_bal resolve base parts (d + 1) (applyStyle resolve st sty) h'
    have h1 : hMeasure (applyStyle resolve st sty) ≤ hMeasure st + 1 :=
      h_applyStyle resolve st sty
    simp only [write, List.foldl_cons] at ih ⊢
    have h3 : hMeasure (applyStyle resolve st sty) - (d + 1) ≤ hMeasure st - d := by
      omega
    exact le_trans ih h3
  | TextPart.endStyle :: parts, d, st, h => by
    match d with
    | 0 => simp [balFrom] at h
    | d2 + 1 =>
      have h' : balFrom d2 parts = true := by simpa [balFrom] using h
      have ih := h_write_bal resolve base parts d2 (removeStyle st) h'
      have h1 : hMeasure (removeStyle st) = hMeasure st - 1 := h_removeStyle st
      simp only [write, List.foldl_cons] at ih ⊢
      have h3 : hMeasure (removeStyle st) - d2 ≤ hMeasure st - (d2 + 1) := by
        omega
      exact le_trans ih h3

theorem h_titleGo_bal (resolve : String → Option String) :
    ∀ (parts : List TextPart) (d : Nat) (st : WriterState),
    balFrom d parts = true →
    hMeasure (titleGo resolve st parts) ≤ hMeasure st - d
  | [], d, st, h => by
    have hd : d = 0 := by simpa [balFrom] using h
    subst hd
    simp [titleGo]
  | TextPart.text t :: parts, d, st, h => by
    have h' : balFrom d parts = true := by simpa [balFrom] using h
    have ih := h_titleGo_bal resolve parts d (writeStr st t) h'
    simp only [titleGo, List.foldl_cons] at ih ⊢
    calc hMeasure (List.foldl (titleOne resolve) (writeStr st t) parts)
        ≤ hMeasure (writeStr st t) - d := ih
      _ = hMeasure st - d := by rw [h_writeStr]
  | TextPart.image src :: parts, d, st, h => by
    have h' : balFrom d parts = true := by simpa [balFrom] using h
    have ih := h_titleGo_bal resolve parts d st h'
    simpa only [titleGo, List.foldl_cons, titleOne] using ih
  | TextPart.table :: parts, d, st, h => by
    have h' : balFrom d parts = true := by simpa [balFrom] using h
    have ih := h_titleGo_bal resolve parts d st h'
    simpa only [titleGo, List.foldl_cons, titleOne] using ih
  | TextPart.beginStyle sty :: parts, d, st, h => by
    have h' : balFrom (d + 1) parts = true := by simpa [balFrom] using h
    have ih := h_titleGo_bal resolve parts (d + 1) (applyStyle resolve st sty) h'
    have h1 : hMeasure (applyStyle resolve st sty) ≤ hMeasure st + 1 :=
      h_applyStyle resolve st sty
    simp only [titleGo, List.foldl_cons] at ih ⊢
    have h3 : hMeasure (applyStyle resolve st sty) - (d + 1) ≤ hMeasure st - d := by
      omega
    exact le_trans ih h3
  | TextPart.endStyle :: parts, d, st, h => by
    match d with
    | 0 => simp [balFrom] at h
    | d2 + 1 =>
      have h' : balFrom d2 parts = true := by simpa [balFrom] using h
      have ih := h_titleGo_bal resolve parts d2 (removeStyle st) h'
      have h1 : hMeasure (removeStyle st) = hMeasure st - 1 := h_removeStyle st
      simp only [titleGo, List.foldl_cons] at ih ⊢
      have h3 : hMeasure (removeStyle st) - d2 ≤ hMeasure st - (d2 + 1) := by
        omega
      exact le_trans ih h3

theorem h_writeListItems_bal (resolve : String → Option String) (base : String) :
    ∀ (items : List (List TextPart)) (i : Nat) (st : WriterState),
    items.all (balFrom 0) = true →
    hMeasure (writeListItems resolve base st i items) ≤ hMeasure st
  | [], _, st, _ => Nat.le_refl _
  | item :: rest, i, st, h => by
    have hsplit : balFrom 0 item = true ∧ rest.all (balFrom 0) = true := by
      rw [List.all_cons] at h
      exact And.intro (Bool.and_elim_left h) (Bool.and_elim_right h)
    have hitem : balFrom 0 item = true := hsplit.1
    have hrest : rest.all (balFrom 0) = true := hsplit.2
    set st1 := if 0 < i then lineBreak st else st with hst1
    have hh1 : hMeasure st1 = hMeasure st := by
      rw [hst1]
      by_cases hi : 0 < i
      · simp [hi, h_lineBreak]
      · simp [hi]
    set st2 := write resolve base (writeStr st1 "• ") item with hst2
    have hh2 : hMeasure st2 ≤ hMeasure st := by
      have hw := h_write_bal resolve base item 0 (writeStr st1 "• ") hitem
      rw [← hst2] at hw
      rw [h_writeStr, hh1] at hw
      omega
    have ih := h_writeListItems_bal resolve base rest (i + 1) st2 hrest
    calc hMeasure (writeListItems resolve base st i (item :: rest))
        = hMeasure (writeListItems resolve base st2 (i + 1) rest) := by
          rw [writeListItems]
      _ ≤ hMeasure st2 := ih
      _ ≤ hMeasure st := hh2

theorem h_renderParagraph_bal (resolve : String → Option String) (base : String)
    (u : Paragraph) (st : WriterState) (h : parBalanced u = true) :
    hMeasure (renderParagraph resolve base st u) ≤ hMeasure st := by
  cases u with
  | text run =>
    have hb : balFrom 0 run = true := by simpa [parBalanced] using h
    have h2 := h_write_bal resolve base run 0 st hb
    simpa [renderParagraph] using h2
  | list items =>
    have hb : items.all (balFrom 0) = true := by simpa [parBalanced] using h
    exact h_writeListItems_bal resolve base items 0 st hb
  | code run =>
    have hb : balFrom 0 run = true := by simpa [parBalanced] using h
    have h1 : hMeasure (applyStyle resolve st .monospaced) ≤ hMeasure st + 1 :=
      h_applyStyle resolve st .monospaced
    have h2 := h_write_bal resolve base run 0 (applyStyle resolve st .monospaced) hb
    have h3 := h_removeStyle (write resolve base (applyStyle resolve st .monospaced) run)
    simp only [renderParagraph]
    omega

theorem h_renderRow_bal (resolve : String → Option String) (base : String)
    (r : ItemRow) (st : WriterState) (h : rowBalanced r = true) :
    hMeasure (renderRow resolve base st r) ≤ hMeasure st := by
  have hn : balFrom 0 r.name = true := by
    simp [rowBalanced] at h
    exact h.1
  have hs : balFrom 0 r.summary = true := by
    simp [rowBalanced] at h
    exact h.2
  have h1 := h_write_bal resolve base r.name 0 st hn
  have h2 := h_lineBreak (write resolve base st r.name)
  have h3 := h_write_bal resolve base r.summary 0
    (lineBreak (write resolve base st r.name)) hs
  simp only [renderRow]
  omega


/-! ## Preservation of the balance invariant -/

theorem bufBal_append {a b : List Chunk}
    (ha : checkTags [] (tagSeq a) = some [])
    (hb : checkTags [] (tagSeq b) = some []) :
    checkTags [] (tagSeq (a ++ b)) = some [] := by
  rw [tagSeq_append, checkTags_append, ha, Option.some_bind, hb]

theorem inv_writeTitle (resolve : String → Option String) (title : List TextPart)
    (st : WriterState) (hs : st.styles = []) (hic : st.in_code = false)
    (hbal : balFrom 0 title = true) (hinv : Inv st) :
    Inv (writeTitle resolve st title) := by
  have hinv1 : Inv { st with styles := [], in_code := false } := by
    simp only [Inv, openCtx] at hinv ⊢
    simp only [hic, Bool.false_eq_true, if_false, hs] at hinv
    simpa using hinv
  have hinv2 := invOk_titleGo resolve title _ hinv1
  have hh := h_titleGo_bal resolve title 0 { st with styles := [], in_code := false } hbal
  have hz : hMeasure (titleGo resolve { st with styles := [], in_code := false } title) = 0 := by
    have hz0 : hMeasure { st with styles := [], in_code := false } = 0 := by
      simp [hMeasure]
    omega
  obtain ⟨hzs, hzic⟩ := hMeasure_zero hz
  simp only [Inv, writeTitle, openCtx, hs, hic, Bool.false_eq_true, if_false]
  simp only [Inv, openCtx, hzic, Bool.false_eq_true, if_false, hzs] at hinv2
  exact hinv2

theorem good_writeStr (st : WriterState) (t : String) (h : GoodState st) :
    GoodState (writeStr st t) := by
  obtain ⟨h1, h2, h3, h4⟩ := h
  exact ⟨h1, by
    rw [(rfl : (writeStr st t).buffer = st.buffer ++ [Chunk.str (if st.in_code then t else collapseWs t)])]
    exact bufBal_append h2 rfl, h3, h4⟩

theorem good_lineBreak (st : WriterState) (h : GoodState st) :
    GoodState (lineBreak st) := by
  obtain ⟨h1, h2, h3, h4⟩ := h
  by_cases hc : st.written < st.limit
  · refine ⟨?_, ?_, ?_, ?_⟩ <;> simp only [lineBreak, if_pos hc]
    · exact h1
    · exact bufBal_append h2 rfl
    · exact h3
    · exact h4
  · simpa [lineBreak, hc] using ⟨h1, h2, h3, h4⟩

theorem good_writeTitle (resolve : String → Option String) (title : List TextPart)
    (st : WriterState) (hbal : balFrom 0 title = true) (h : GoodState st) :
    GoodState (writeTitle resolve st title) := by
  obtain ⟨h1, h2, h3, h4⟩ := h
  have hinv : Inv st := by
    simp only [Inv, openCtx, h3, h4, Bool.false_eq_true, if_false]
    exact h2
  have hinv2 := inv_writeTitle resolve title st h3 h4 hbal hinv
  obtain ⟨p1, _, _⟩ := shapeOk_writeTitle resolve title st
  refine ⟨by rw [p1]; exact h1, ?_, h3, h4⟩
  simp only [Inv, openCtx] at hinv2
  have hs2 : (writeTitle resolve st title).styles = st.styles := rfl
  have hic2 : (writeTitle resolve st title).in_code = st.in_code := rfl
  rw [hs2, hic2, h4, h3] at hinv2
  simpa using hinv2

theorem good_unit {U : Type} (f : WriterState → U → WriterState) (u : U)
    (hinv : InvOk (fun st => f st u))
    (hshape : ShapeOk (fun st => f st u))
    (hh : ∀ st, hMeasure (f st u) ≤ hMeasure st)
    (st : WriterState) (h : GoodState st) : GoodState (f st u) := by
  obtain ⟨h1, h2, h3, h4⟩ := h
  have hI : Inv st := by
    simp only [Inv, openCtx, h3, h4, Bool.false_eq_true, if_false]
    exact h2
  have hI2 := hinv st hI
  have hz : hMeasure (f st u) = 0 := by
    have hz0 : hMeasure st = 0 := by simp [hMeasure, h3, h4]
    have := hh st
    omega
  obtain ⟨hzs, hzic⟩ := hMeasure_zero hz
  obtain ⟨p1, _, _⟩ := hshape st
  refine ⟨by rw [p1]; exact h1, ?_, hzs, hzic⟩
  simp only [Inv, openCtx, hzic, Bool.false_eq_true, if_false, hzs] at hI2
  exact hI2

theorem good_unitStep {U : Type} (f : WriterState → U → WriterState)
    (resolve : String → Option String) (title : List TextPart) (u : U)
    (hinv : InvOk (fun st => f st u))
    (hshape : ShapeOk (fun st => f st u))
    (hh : ∀ st, hMeasure (f st u) ≤ hMeasure st)
    (htitle : balFrom 0 title = true)
    (st : WriterState) (wp : Nat) (h : GoodState st) :
    GoodState (unitStep f resolve title st wp u).1 := by
  obtain ⟨h1, h2, h3, h4⟩ := h
  have hg1 : GoodState { st with buffer := ([] : List Chunk), written := 0 } :=
    ⟨h1, rfl, h3, h4⟩
  have hg2 : GoodState (if wp = 0 then
      lineBreak (lineBreak (writeTitle resolve { st with buffer := ([] : List Chunk), written := 0 } title))
      else { st with buffer := ([] : List Chunk), written := 0 }) := by
    by_cases hwp : wp = 0
    · simp only [if_pos hwp]
      exact good_lineBreak _ (good_lineBreak _
        (good_writeTitle resolve title _ htitle hg1))
    · simpa [hwp] using hg1
  set st2 := (if wp = 0 then
      lineBreak (lineBreak (writeTitle resolve { st with buffer := ([] : List Chunk), written := 0 } title))
      else { st with buffer := ([] : List Chunk), written := 0 }) with hst2
  have hg3 : GoodState (f st2 u) := good_unit f u hinv hshape hh st2 hg2
  obtain ⟨g1, g2, g3, g4⟩ := hg3
  show GoodState (unitStep f resolve title st wp u).1
  rw [unitStep]
  by_cases hwp : 0 < wp
  · simp only [if_pos hwp, ← hst2]
    by_cases hguard : (f st2 u).limit < (f st2 u).written + st.written + 1
    · simp only [if_pos hguard]
      have hg4 : GoodState { f st2 u with
          pages := (f st2 u).pages ++ [⟨st.buffer, none, []⟩],
          buffer := ([] : List Chunk) } := by
        refine ⟨?_, rfl, g3, g4⟩
        intro p hp
        rcases List.mem_append.mp hp with hp | hp
        · exact g1 p hp
        · rcases List.mem_singleton.mp hp with rfl
          exact h2
      have hg5 := good_lineBreak _ (good_lineBreak _
        (good_writeTitle resolve title _ htitle hg4))
      obtain ⟨k1, k2, k3, k4⟩ := hg5
      exact ⟨k1, bufBal_append k2 g2, k3, k4⟩
    · simp only [if_neg hguard]
      have hg4 : GoodState { f st2 u with buffer := st.buffer } := by
        refine ⟨g1, h2, g3, g4⟩
      have hg5 := good_lineBreak _ hg4
      obtain ⟨k1, k2, k3, k4⟩ := hg5
      exact ⟨k1, bufBal_append k2 g2, k3, k4⟩
  · simp only [if_neg hwp, ← hst2]
    exact ⟨g1, g2, g3, g4⟩


/-! ## The balance invariant through the loop and the document build -/

theorem good_unitLoop {U : Type} (f : WriterState → U → WriterState)
    (resolve : String → Option String) (title : List TextPart)
    (hinv : ∀ u, InvOk (fun st => f st u))
    (hshape : ∀ u, ShapeOk (fun st => f st u))
    (htitle : balFrom 0 title = true) :
    ∀ (us : List U) (st : WriterState) (wp : Nat),
    (∀ u ∈ us, ∀ st2, hMeasure (f st2 u) ≤ hMeasure st2) →
    GoodState st → GoodState (unitLoop f resolve title st wp us)
  | [], _, _, _, h => h
  | u :: rest, st, wp, hbal, h => by
    have h1 := good_unitStep f resolve title u (hinv u) (hshape u)
      (fun st2 => hbal u (List.mem_cons_self u rest) st2) htitle st wp h
    rw [unitLoop]
    exact good_unitLoop f resolve title hinv hshape htitle rest _ _
      (fun v hv st2 => hbal v (List.mem_cons_of_mem u hv) st2) h1

theorem good_newPage (st : WriterState) (h : GoodState st) :
    GoodState (newPage st) := by
  obtain ⟨h1, h2, h3, h4⟩ := h
  by_cases hc : (renderChunks st.buffer).isEmpty = true
  · simpa [newPage, hc] using ⟨h1, h2, h3, h4⟩
  · refine ⟨?_, ?_, ?_, ?_⟩ <;> simp only [newPage, hc, Bool.false_eq_true, if_false]
    · intro p hp
      rcases List.mem_append.mp hp with hp | hp
      · exact h1 p hp
      · rcases List.mem_singleton.mp hp with rfl
        exact h2
    · rfl
    · exact h3
    · exact h4

theorem good_write (resolve : String → Option String) (base : String)
    (run : List TextPart) (st : WriterState) (hbal : balFrom 0 run = true)
    (h : GoodState st) : GoodState (write resolve base st run) := by
  refine good_unit (fun st2 r => write resolve base st2 r) run
    (invOk_write resolve base run) (shapeOk_write resolve base run)
    (fun st2 => ?_) st h
  have h2 := h_write_bal resolve base run 0 st2 hbal
  simpa using h2

theorem good_write_paragraphs (resolve : String → Option String) (base : String)
    (st : WriterState) (title : List TextPart) (ps : List Paragraph)
    (htitle : balFrom 0 title = true) (hps : ps.all parBalanced = true)
    (h : GoodState st) : GoodState (write_paragraphs resolve base st title ps) := by
  apply good_unitLoop (fun s u => renderParagraph resolve base s u) resolve title
    (fun u => invOk_renderParagraph resolve base u)
    (fun u => shapeOk_renderParagraph resolve base u) htitle ps (newPage st) 0
  · intro u hu st2
    exact h_renderParagraph_bal resolve base u st2 (List.all_eq_true.mp hps u hu)
  · exact good_newPage st h

theorem good_write_item_rows (resolve : String → Option String) (base : String)
    (st : WriterState) (title : List TextPart) (rows : List ItemRow)
    (htitle : balFrom 0 title = true) (hrows : rows.all rowBalanced = true)
    (h : GoodState st) : GoodState (write_item_rows resolve base st title rows) := by
  apply good_unitLoop (fun s r => renderRow resolve base s r) resolve title
    (fun r => invOk_renderRow resolve base r)
    (fun r => shapeOk_renderRow resolve base r) htitle rows (newPage st) 0
  · intro r hr st2
    exact h_renderRow_bal resolve base r st2 (List.all_eq_true.mp hrows r hr)
  · exact good_newPage st h

theorem mem_mapIdx {α β : Type} (g : Nat → α → β) (l : List α) (q : β)
    (h : q ∈ l.mapIdx g) : ∃ i x, l[i]? = some x ∧ q = g i x := by
  obtain ⟨i, hi, hq⟩ := List.mem_iff_getElem.mp h
  have hlen : i < l.length := by simpa [List.length_mapIdx] using hi
  refine ⟨i, l[i], by simp [List.getElem?_eq_getElem hlen], ?_⟩
  have h2 := getElem?_mapIdx g l i
  rw [List.getElem?_eq_getElem hi, List.getElem?_eq_getElem hlen] at h2
  simp only [Option.map_some', Option.some_inj] at h2
  rw [← hq, h2]

theorem finalize_balanced (st : WriterState) (h : GoodState st) :
    ∀ p ∈ finalize st, balancedChunks p.text := by
  obtain ⟨h1, h2, -, -⟩ := h
  have hfl : ∀ p ∈ flushedPages st, balancedChunks p.text := by
    intro p hp
    by_cases hc : (renderChunks st.buffer).isEmpty = true
    · rw [flushedPages, if_pos hc] at hp
      exact h1 p hp
    · rw [flushedPages, if_neg hc] at hp
      rcases List.mem_append.mp hp with hp | hp
      · exact h1 p hp
      · rcases List.mem_singleton.mp hp with rfl
        exact h2
  intro p hp
  simp only [finalize] at hp
  by_cases hl : 1 < (flushedPages st).length - st.begin_page
  · rw [if_pos hl] at hp
    obtain ⟨i, x, hx, hpx⟩ := mem_mapIdx _ _ p hp
    have hxm : x ∈ flushedPages st := by
      rcases List.getElem?_eq_some.mp hx with ⟨hb, hxe⟩
      rw [← hxe]
      exact List.getElem_mem _
    have hxb := hfl x hxm
    rw [hpx]
    by_cases hbp : st.begin_page ≤ i
    · simpa [hbp] using hxb
    · simpa [hbp] using hxb
  · rw [if_neg hl] at hp
    exact hfl p hp

theorem good_writerNew (pages : List Page)
    (h : ∀ p ∈ pages, balancedChunks p.text) : GoodState (writerNew pages) :=
  ⟨h, rfl, rfl, rfl⟩

theorem good_desc_fold (resolve : String → Option String) (base : String)
    (title : List TextPart) (htitle : balFrom 0 title = true) :
    ∀ (secs : List DocSection) (st : WriterState),
    secs.all sectionBalanced = true → GoodState st →
    GoodState (secs.foldl
      (fun w sec => write_paragraphs resolve base w (sec.heading.getD title) sec.contents) st)
  | [], _, _, h => h
  | sec :: rest, st, hsecs, h => by
    have hsec : sectionBalanced sec = true :=
      List.all_eq_true.mp hsecs sec (List.mem_cons_self sec rest)
    have hrest : rest.all sectionBalanced = true := by
      rw [List.all_cons] at hsecs
      exact Bool.and_elim_right hsecs
    have hhead : balFrom 0 (sec.heading.getD title) = true := by
      cases hh : sec.heading with
      | none => simpa using htitle
      | some run =>
        have := Bool.and_elim_left ((by simpa [sectionBalanced] using hsec :
          runBalancedOpt sec.heading && sec.contents.all parBalanced = true))
        simpa [hh, runBalancedOpt] using this
    have hcont : sec.contents.all parBalanced = true := by
      have h2 := Bool.and_elim_right ((by simpa [sectionBalanced] using hsec :
        runBalancedOpt sec.heading && sec.contents.all parBalanced = true))
      exact of_decide_eq_true h2
    rw [List.foldl_cons]
    exact good_desc_fold resolve base title htitle rest _ hrest
      (good_write_paragraphs resolve base st _ sec.contents hhead hcont h)

theorem buildMain_balanced (resolve : String → Option String) (base : String)
    (doc : Document) (hdoc : docBalanced doc = true) :
    ∀ p ∈ buildMain resolve base doc, balancedChunks p.text := by
  have htitle : balFrom 0 doc.title = true := by
    simp only [docBalanced, Bool.and_eq_true] at hdoc
    exact hdoc.1.1.1
  have hdecl : runBalancedOpt doc.declaration = true := by
    simp only [docBalanced, Bool.and_eq_true] at hdoc
    exact hdoc.1.1.2
  have hdesc : doc.description.all sectionBalanced = true := by
    simp only [docBalanced, Bool.and_eq_true] at hdoc
    exact hdoc.1.2
  have hg0 : GoodState (writerNew []) := good_writerNew [] (by intro p hp; simp at hp)
  have hg1 : GoodState (match doc.declaration with
      | some decl =>
        write resolve base (lineBreak (lineBreak (writeTitle resolve (writerNew []) doc.title))) decl
      | none => writerNew []) := by
    cases hd : doc.declaration with
    | none => exact hg0
    | some decl =>
      have hdb : balFrom 0 decl = true := by
        simpa [hd, runBalancedOpt] using hdecl
      exact good_write resolve base decl _ hdb
        (good_lineBreak _ (good_lineBreak _
          (good_writeTitle resolve doc.title _ htitle hg0)))
  apply finalize_balanced
  apply good_desc_fold resolve base doc.title htitle doc.description _ hdesc
  by_cases he : doc.description.isEmpty
  · simp only [buildMain, he, if_pos]
    exact good_writeTitle resolve doc.title _ htitle hg1
  · simpa [buildMain, he] using hg1

theorem buildItems_balanced (resolve : String → Option String) (base : String) :
    ∀ (items : List ItemList) (pages : List Page) (adds : List (List Row)),
    items.all itemListBalanced = true →
    (∀ p ∈ pages, balancedChunks p.text) →
    ∀ p ∈ (buildItems resolve base pages adds items).1, balancedChunks p.text
  | [], pages, adds, _, hp => hp
  | il :: rest, pages, adds, hit, hp => by
    have hil : itemListBalanced il = true :=
      List.all_eq_true.mp hit il (List.mem_cons_self il rest)
    have hrest : rest.all itemListBalanced = true := by
      rw [List.all_cons] at hit
      exact Bool.and_elim_right hit
    cases hk : il.kind with
    | table rows =>
      have hhead : balFrom 0 il.heading = true := by
        simp only [itemListBalanced, Bool.and_eq_true] at hil
        exact hil.1
      have hrows : rows.all rowBalanced = true := by
        simp only [itemListBalanced, hk, Bool.and_eq_true] at hil
        exact hil.2
      have hnew : ∀ p ∈ finalize (write_item_rows resolve base (writerNew pages) il.heading rows),
          balancedChunks p.text := by
        apply finalize_balanced
        exact good_write_item_rows resolve base _ il.heading rows hhead hrows
          (good_writerNew pages hp)
      have hmapped : ∀ p ∈ (finalize (write_item_rows resolve base (writerNew pages) il.heading rows)).mapIdx
          (fun i q => if pages.length ≤ i then { q with additionals := q.additionals ++ [[mainRow]] } else q),
          balancedChunks p.text := by
        intro p hpm
        obtain ⟨i, x, hx, hpx⟩ := mem_mapIdx _ _ p hpm
        have hxm : x ∈ finalize (write_item_rows resolve base (writerNew pages) il.heading rows) := by
          rcases List.getElem?_eq_some.mp hx with ⟨hb, hxe⟩
          rw [← hxe]
          exact List.getElem_mem _
        have hxb := hnew x hxm
        rw [hpx]
        by_cases hc : pages.length ≤ i
        · simpa [hc] using hxb
        · simpa [hc] using hxb
      intro p hpm
      rw [buildItems] at hpm
      simp only [hk] at hpm
      exact buildItems_balanced resolve base rest _ _ hrest hmapped p hpm
    | fields =>
      intro p hpm
      rw [buildItems] at hpm
      simp only [hk] at hpm
      exact buildItems_balanced resolve base rest _ _ hrest hp p hpm
    | impls =>
      intro p hpm
      rw [buildItems] at hpm
      simp only [hk] at hpm
      exact buildItems_balanced resolve base rest _ _ hrest hp p hpm

/-! ## Claim C3: style balance of every page -/

/-- Claim C3.  For every input Document all of whose runs have balanced,
properly nested BeginStyle/EndStyle parts, every page emitted by
`build_documentation` has fully nested, fully closed style markup: matching
its tag tokens from an empty stack succeeds and ends with no dangling open
tag. -/
theorem style_balance (resolve : String → Option String) (base : String)
    (doc : Document) (hdoc : docBalanced doc = true) :
    ∀ p ∈ build_documentation resolve base doc, balancedChunks p.text := by
  intro p hp
  simp only [build_documentation] at hp
  obtain ⟨i, x, hx, hpx⟩ := mem_mapIdx _ _ p hp
  have hxm : x ∈ (buildItems resolve base (buildMain resolve base doc) [] doc.items).1 := by
    rcases List.getElem?_eq_some.mp hx with ⟨hb, hxe⟩
    rw [← hxe]
    exact List.getElem_mem _
  have hitems : doc.items.all itemListBalanced = true := by
    simp only [docBalanced, Bool.and_eq_true] at hdoc
    exact hdoc.2
  have hxb := buildItems_balanced resolve base doc.items
    (buildMain resolve base doc) [] hitems
    (buildMain_balanced resolve base doc hdoc) x hxm
  rw [hpx]
  by_cases hc : i < (buildMain resolve base doc).length
  · simpa [hc] using hxb
  · simpa [hc] using hxb

/-- Witness for C3 on a concrete document exercising declaration, styles,
code spans and one table listing. -/
theorem style_balance_witness :
    docBalanced ⟨[TextPart.text "T"],
      some [TextPart.beginStyle .bold, TextPart.text "d", TextPart.endStyle],
      [⟨none, [Paragraph.text [TextPart.beginStyle .italic, TextPart.text "x",
        TextPart.beginStyle .monospaced, TextPart.text "y", TextPart.endStyle,
        TextPart.endStyle]]⟩],
      [⟨[TextPart.text "L"], .table [⟨[TextPart.text "n"], [TextPart.text "s"]⟩]⟩]⟩ = true ∧
    ∀ p ∈ build_documentation (fun _ => none) "b"
      ⟨[TextPart.text "T"],
      some [TextPart.beginStyle .bold, TextPart.text "d", TextPart.endStyle],
      [⟨none, [Paragraph.text [TextPart.beginStyle .italic, TextPart.text "x",
        TextPart.beginStyle .monospaced, TextPart.text "y", TextPart.endStyle,
        TextPart.endStyle]]⟩],
      [⟨[TextPart.text "L"], .table [⟨[TextPart.text "n"], [TextPart.text "s"]⟩]⟩]⟩,
      balancedChunks p.text :=
  ⟨by decide, style_balance (fun _ => none) "b" _ (by decide)⟩


/-! ## Helper lemmas for the page-chain analysis -/

theorem lineBreak_split (X : WriterState) :
    ∃ b, IsBreakOpt b ∧ (lineBreak X).buffer = X.buffer ++ b ∧
      (lineBreak X).written = X.written + b.length ∧
      (lineBreak X).pages = X.pages ∧ (lineBreak X).limit = X.limit := by
  by_cases h : X.written < X.limit
  · refine ⟨[Chunk.str "\n"], Or.inr rfl, ?_, ?_, ?_, ?_⟩ <;> simp [lineBreak, h]
  · refine ⟨[], Or.inl rfl, ?_, ?_, ?_, ?_⟩ <;> simp [lineBreak, h]

theorem unitsChain_snoc {U : Type} {f : WriterState → U → WriterState}
    {block : List U} {c : List Chunk} (h : UnitsChain f block c) (u : U)
    (s : List Chunk) (hs : IsScratch f u s) :
    UnitsChain f (block ++ [u]) (c ++ Chunk.str "\n" :: s) := by
  induction h with
  | single u0 s0 h0 =>
    exact UnitsChain.cons u0 s0 [u] s h0 (by simp) (UnitsChain.single u s hs)
  | cons u0 s0 rest c0 h0 hne hrest ih =>
    rw [List.cons_append, List.append_assoc, List.cons_append]
    exact UnitsChain.cons u0 s0 (rest ++ [u]) (c0 ++ Chunk.str "\n" :: s) h0
      (by simp) ih

theorem blockChain_head {U : Type} {f : WriterState → U → WriterState}
    {resolve : String → Option String} {title : List TextPart} {limit : Nat}
    {blocks : List (List U)} {pushed : List Page} {buf : List Chunk} {w : Nat}
    (h : BlockChain f resolve title limit blocks pushed buf w) :
    ∀ {u : U} {rest2 : List U}, blocks.flatten = u :: rest2 →
    ∃ b2 bs, blocks = b2 :: bs ∧ b2.head? = some u := by
  intro u rest2 hj
  cases h with
  | nil w => simp at hj
  | last b buf w hne hp hr hb =>
    refine ⟨b, [], rfl, ?_⟩
    have hb2 : b = u :: rest2 := by simpa using hj
    rw [hb2]
    rfl
  | brk b p b2 blocks pushed buf w wp sw u2 hne hp hr hb hk ha hh hsw hg hrec =>
    refine ⟨b, b2 :: blocks, rfl, ?_⟩
    match b, hne with
    | v :: b', _ =>
      have hv : v = u := by
        have h2 : v :: (b' ++ (b2 :: blocks).flatten) = u :: rest2 := by
          simpa using hj
        exact (List.cons.injEq _ _ _ _ ▸ h2 : _ ∧ _).1
      rw [hv]
      rfl

/-- The tracked-length and budget facts of one `BlockChain`, extracted:
every sealed page whose block holds at least two units has raw content
within the budget, and so does the final buffer when its block does. -/
theorem blockChain_raw_bound {U : Type} {f : WriterState → U → WriterState}
    {resolve : String → Option String} {title : List TextPart} {limit : Nat} :
    ∀ {blocks : List (List U)} {pushed : List Page} {buf : List Chunk} {w : Nat},
    BlockChain f resolve title limit blocks pushed buf w →
    (∀ (i : Nat) (b : List U) (p : Page),
      blocks[i]? = some b → pushed[i]? = some p → 2 ≤ b.length →
      rawLen p.text ≤ limit) ∧
    (∀ b : List U, blocks.getLast? = some b → 2 ≤ b.length → rawLen buf ≤ limit) := by
  intro blocks pushed buf w h
  induction h with
  | nil w =>
    refine ⟨fun i b p hb hp h2 => ?_, fun b hb h2 => ?_⟩
    · rw [List.getElem?_nil] at hp
      cases hp
    · rw [List.getLast?_nil] at hb
      cases hb
  | last b buf w hne hp hb hbud =>
    refine ⟨fun i bi pi hbi hpi h2 => ?_, fun bl hbl h2 => ?_⟩
    · rw [List.getElem?_nil] at hpi
      cases hpi
    · rw [List.getLast?_singleton] at hbl
      cases hbl
      have h3 := hbud h2
      omega
  | brk b p b2 blocks pushed buf w wp sw u2 hne hpo hr hbud hk ha hh hsw hg hrec ih =>
    refine ⟨fun i bi pi hbi hpi h2 => ?_, fun bl hbl h2 => ?_⟩
    · cases i with
      | zero =>
        rw [List.getElem?_cons_zero] at hbi hpi
        cases hbi
        cases hpi
        have h3 := hbud h2
        omega
      | succ i =>
        rw [List.getElem?_cons_succ] at hbi hpi
        exact ih.1 i bi pi hbi hpi h2
    · rw [List.getLast?_cons_cons] at hbl
      exact ih.2 bl hbl h2


/-! ## Shape equations for one loop iteration -/

theorem unitStep_eq_first {U : Type} (f : WriterState → U → WriterState)
    (resolve : String → Option String) (title : List TextPart)
    (st : WriterState) (u : U) :
    unitStep f resolve title st 0 u =
      (f (lineBreak (lineBreak (writeTitle resolve
        { st with buffer := [], written := 0 } title))) u, 1) := by
  rw [unitStep]
  simp

theorem unitStep_eq_brk {U : Type} (f : WriterState → U → WriterState)
    (resolve : String → Option String) (title : List TextPart)
    (st : WriterState) (u : U) (wp : Nat) (hwp : 0 < wp)
    (hg : (f { st with buffer := [], written := 0 } u).limit <
      (f { st with buffer := [], written := 0 } u).written + st.written + 1) :
    unitStep f resolve title st wp u =
      ({ lineBreak (lineBreak (writeTitle resolve
          { f { st with buffer := [], written := 0 } u with
            pages := (f { st with buffer := [], written := 0 } u).pages
              ++ [⟨st.buffer, none, []⟩],
            buffer := [] } title)) with
        buffer := (lineBreak (lineBreak (writeTitle resolve
          { f { st with buffer := [], written := 0 } u with
            pages := (f { st with buffer := [], written := 0 } u).pages
              ++ [⟨st.buffer, none, []⟩],
            buffer := [] } title))).buffer
            ++ (f { st with buffer := [], written := 0 } u).buffer }, 1) := by
  rw [unitStep]
  simp only [if_neg (Nat.pos_iff_ne_zero.mp hwp), if_pos hwp, if_pos hg]

theorem unitStep_eq_join {U : Type} (f : WriterState → U → WriterState)
    (resolve : String → Option String) (title : List TextPart)
    (st : WriterState) (u : U) (wp : Nat) (hwp : 0 < wp)
    (hg : ¬ (f { st with buffer := [], written := 0 } u).limit <
      (f { st with buffer := [], written := 0 } u).written + st.written + 1) :
    unitStep f resolve title st wp u =
      ({ lineBreak { f { st with buffer := [], written := 0 } u with
            buffer := st.buffer } with
        buffer := (lineBreak { f { st with buffer := [], written := 0 } u with
            buffer := st.buffer }).buffer
            ++ (f { st with buffer := [], written := 0 } u).buffer,
        written := (lineBreak { f { st with buffer := [], written := 0 } u with
            buffer := st.buffer }).written + st.written + 1 }, wp + 1) := by
  rw [unitStep]
  simp only [if_neg (Nat.pos_iff_ne_zero.mp hwp), if_pos hwp, if_neg hg]

theorem titleBreaks_split (resolve : String → Option String)
    (title : List TextPart) (X : WriterState) (hX : X.buffer = []) :
    ∃ t b1 b2, IsTitleChunk resolve title t ∧ IsBreakOpt b1 ∧ IsBreakOpt b2 ∧
      (lineBreak (lineBreak (writeTitle resolve X title))).buffer =
        t ++ (b1 ++ b2) := by
  obtain ⟨b1, hb1, he1, -, -, -⟩ := lineBreak_split (writeTitle resolve X title)
  obtain ⟨b2, hb2, he2, -, -, -⟩ := lineBreak_split (lineBreak (writeTitle resolve X title))
  refine ⟨(writeTitle resolve X title).buffer, b1, b2, ⟨X, hX, rfl⟩, hb1, hb2, ?_⟩
  rw [he2, he1, List.append_assoc]

theorem rawOk_titleBreaks (resolve : String → Option String)
    (title : List TextPart) :
    RawOk (fun st => lineBreak (lineBreak (writeTitle resolve st title))) :=
  rawOk_comp (rawOk_comp (rawOk_writeTitle resolve title) rawOk_lineBreak)
    rawOk_lineBreak

theorem shapeOk_titleBreaks (resolve : String → Option String)
    (title : List TextPart) :
    ShapeOk (fun st => lineBreak (lineBreak (writeTitle resolve st title))) :=
  shapeOk_comp (shapeOk_comp (shapeOk_writeTitle resolve title) shapeOk_lineBreak)
    shapeOk_lineBreak


/-! ## The master chain lemma for the accumulation loop -/

theorem unitLoop_chain {U : Type} (f : WriterState → U → WriterState)
    (resolve : String → Option String) (title : List TextPart)
    (hraw : ∀ u, RawOk (fun st => f st u))
    (hshape : ∀ u, ShapeOk (fun st => f st u)) :
    ∀ (us : List U) (st : WriterState) (wp : Nat) (cb : List U),
    0 < wp → cb ≠ [] →
    PageOf f resolve title cb st.buffer →
    rawLen st.buffer + cb.length ≤ st.written + 1 →
    (2 ≤ cb.length → st.written + 1 ≤ st.limit + cb.length) →
    ∃ blocks pushed,
      blocks.flatten = cb ++ us ∧
      (unitLoop f resolve title st wp us).pages = st.pages ++ pushed ∧
      (unitLoop f resolve title st wp us).limit = st.limit ∧
      BlockChain f resolve title st.limit blocks pushed
        (unitLoop f resolve title st wp us).buffer
        (unitLoop f resolve title st wp us).written
  | [], st, wp, cb, hwp, hne, hpage, hrawb, hbud =>
    ⟨[cb], [], by simp, by simp [unitLoop], rfl,
      BlockChain.last cb _ _ hne hpage hrawb hbud⟩
  | u :: rest, st, wp, cb, hwp, hne, hpage, hrawb, hbud => by
    have hraw3 : rawLen (f { st with buffer := [], written := 0 } u).buffer ≤
        (f { st with buffer := [], written := 0 } u).written := by
      have h2 := hraw u { st with buffer := [], written := 0 }
      simpa [rawLen] using h2
    have hpag3 : (f { st with buffer := [], written := 0 } u).pages = st.pages := by
      obtain ⟨hp, -, -⟩ := hshape u { st with buffer := [], written := 0 }
      simpa using hp
    have hlim3 : (f { st with buffer := [], written := 0 } u).limit = st.limit := by
      obtain ⟨-, hl, -⟩ := hshape u { st with buffer := [], written := 0 }
      simpa using hl
    by_cases hg : (f { st with buffer := [], written := 0 } u).limit <
        (f { st with buffer := [], written := 0 } u).written + st.written + 1
    · -- a forced page break
      have heq := unitStep_eq_brk f resolve title st u wp hwp hg
      set st3 := f { st with buffer := [], written := 0 } u with hst3
      set st4 : WriterState := { st3 with
        pages := st3.pages ++ [⟨st.buffer, none, []⟩], buffer := [] } with hst4
      set st5 := lineBreak (lineBreak (writeTitle resolve st4 title)) with hst5
      set stR : WriterState := { st5 with buffer := st5.buffer ++ st3.buffer }
        with hstR
      have hloop : unitLoop f resolve title st wp (u :: rest) =
          unitLoop f resolve title stR 1 rest := by
        rw [unitLoop, heq]
      obtain ⟨t, b1, b2, ht, hb1, hb2, hsplit0⟩ :=
        titleBreaks_split resolve title st4 rfl
      have hsplit : st5.buffer = t ++ (b1 ++ b2) := by
        rw [hst5]
        exact hsplit0
      have hscr : IsScratch f u st3.buffer :=
        ⟨{ st with buffer := [], written := 0 }, rfl,
          congrArg WriterState.buffer hst3⟩
      have hpageR : PageOf f resolve title [u] stR.buffer := by
        refine ⟨t, b1, b2, st3.buffer, ht, hb1, hb2,
          UnitsChain.single u st3.buffer hscr, ?_⟩
        show st5.buffer ++ st3.buffer = t ++ (b1 ++ (b2 ++ st3.buffer))
        rw [hsplit]
        simp [List.append_assoc]
      have h5raw0 := rawOk_titleBreaks resolve title st4
      have h5raw : rawLen st5.buffer + st3.written ≤ st5.written := by
        rw [hst5]
        simpa [rawLen] using h5raw0
      have hrawR : rawLen stR.buffer + ([u] : List U).length ≤ stR.written + 1 := by
        show rawLen (st5.buffer ++ st3.buffer) + 1 ≤ st5.written + 1
        rw [rawLen_append]
        omega
      have hbudR : 2 ≤ ([u] : List U).length →
          stR.written + 1 ≤ stR.limit + ([u] : List U).length := by
        intro h2
        simp at h2
      obtain ⟨hp50, hl50, -⟩ := shapeOk_titleBreaks resolve title st4
      have hpagesR : stR.pages = st.pages ++ [(⟨st.buffer, none, []⟩ : Page)] := by
        show st5.pages = _
        rw [hst5, hp50]
        show st3.pages ++ _ = _
        rw [hpag3]
      have hRlim : stR.limit = st.limit := by
        show st5.limit = st.limit
        rw [hst5, hl50]
        show st3.limit = st.limit
        exact hlim3
      obtain ⟨blocks2, pushed2, hflat2, hpages2, hlim2, hchain2⟩ :=
        unitLoop_chain f resolve title hraw hshape rest stR 1 [u] Nat.one_pos
          (by simp) hpageR hrawR hbudR
      have hflat2' : blocks2.flatten = u :: rest := by simpa using hflat2
      obtain ⟨bb, bs, hbb, hhead⟩ := blockChain_head hchain2 hflat2'
      rw [hRlim] at hchain2
      refine ⟨cb :: blocks2, (⟨st.buffer, none, []⟩ : Page) :: pushed2, ?_, ?_, ?_, ?_⟩
      · simp only [List.flatten_cons, hflat2']
      · rw [hloop, hpages2, hpagesR, List.append_assoc]
        rfl
      · rw [hloop, hlim2, hRlim]
      · rw [hloop]
        rw [hbb] at hchain2 ⊢
        exact BlockChain.brk cb ⟨st.buffer, none, []⟩ bb bs pushed2
          (unitLoop f resolve title stR 1 rest).buffer
          (unitLoop f resolve title stR 1 rest).written st.written st3.written u
          hne hpage hrawb hbud rfl rfl hhead
          ⟨{ st with buffer := [], written := 0 }, rfl, rfl,
            congrArg WriterState.written hst3⟩
          (by rw [← hlim3]; exact hg) hchain2
    · -- joined onto the current page
      have heq := unitStep_eq_join f resolve title st u wp hwp hg
      set st3 := f { st with buffer := [], written := 0 } u with hst3
      set st4 := lineBreak { st3 with buffer := st.buffer } with hst4
      set stJ : WriterState := { st4 with
        buffer := st4.buffer ++ st3.buffer,
        written := st4.written + st.written + 1 } with hstJ
      have hloop : unitLoop f resolve title st wp (u :: rest) =
          unitLoop f resolve title stJ (wp + 1) rest := by
        rw [unitLoop, heq]
      have hfire : ({ st3 with buffer := st.buffer } : WriterState).written <
          ({ st3 with buffer := st.buffer } : WriterState).limit := by
        show st3.written < st3.limit
        omega
      have hst4eq : st4 = { st3 with
          buffer := st.buffer ++ [Chunk.str "\n"],
          written := st3.written + 1 } := by
        rw [hst4]
        simp [lineBreak, hfire]
      have hscr : IsScratch f u st3.buffer :=
        ⟨{ st with buffer := [], written := 0 }, rfl,
          congrArg WriterState.buffer hst3⟩
      obtain ⟨t, b1, b2, c, ht, hb1, hb2, hchainc, htext⟩ := hpage
      have hpageJ : PageOf f resolve title (cb ++ [u]) stJ.buffer := by
        refine ⟨t, b1, b2, c ++ Chunk.str "\n" :: st3.buffer, ht, hb1, hb2,
          unitsChain_snoc hchainc u st3.buffer hscr, ?_⟩
        show st4.buffer ++ st3.buffer = _
        rw [hst4eq]
        show (st.buffer ++ [Chunk.str "\n"]) ++ st3.buffer = _
        rw [htext]
        simp [List.append_assoc]
      have hrawJ : rawLen stJ.buffer + (cb ++ [u]).length ≤ stJ.written + 1 := by
        show rawLen (st4.buffer ++ st3.buffer) + _ ≤ st4.written + st.written + 1 + 1
        rw [hst4eq]
        show rawLen ((st.buffer ++ [Chunk.str "\n"]) ++ st3.buffer) + _ ≤
          st3.written + 1 + st.written + 1 + 1
        rw [rawLen_append, rawLen_append, rawLen_str]
        have hnl : utf8Len "\n" = 1 := rfl
        rw [hnl]
        simp only [List.length_append, List.length_singleton]
        omega
      have hlen1 : 1 ≤ cb.length := List.length_pos.mpr hne
      have hbudJ : 2 ≤ (cb ++ [u]).length →
          stJ.written + 1 ≤ stJ.limit + (cb ++ [u]).length := by
        intro h2
        show st4.written + st.written + 1 + 1 ≤ st4.limit + _
        rw [hst4eq]
        show st3.written + 1 + st.written + 1 + 1 ≤ st3.limit + _
        simp only [List.length_append, List.length_singleton]
        omega
      have hpagesJ : stJ.pages = st.pages := by
        show st4.pages = st.pages
        rw [hst4eq]
        show st3.pages = st.pages
        exact hpag3
      have hJlim : stJ.limit = st.limit := by
        show st4.limit = st.limit
        rw [hst4eq]
        show st3.limit = st.limit
        exact hlim3
      obtain ⟨blocks2, pushed2, hflat2, hpages2, hlim2, hchain2⟩ :=
        unitLoop_chain f resolve title hraw hshape rest stJ (wp + 1) (cb ++ [u])
          (Nat.succ_pos wp) (by simp) hpageJ hrawJ hbudJ
      rw [hJlim] at hchain2
      refine ⟨blocks2, pushed2, ?_, ?_, ?_, ?_⟩
      · rw [hflat2, List.append_assoc]
        rfl
      · rw [hloop, hpages2, hpagesJ]
      · rw [hloop, hlim2, hJlim]
      · rw [hloop]
        exact hchain2


/-! ## The chain shape of one whole section -/

theorem section_chain {U : Type} (f : WriterState → U → WriterState)
    (resolve : String → Option String) (title : List TextPart)
    (hraw : ∀ u, RawOk (fun st => f st u))
    (hshape : ∀ u, ShapeOk (fun st => f st u))
    (hframe : ∀ u, FrameOk (fun st => f st u)) :
    ∀ (us : List U) (st : WriterState), st.buffer = [] → st.written = 0 →
    ∃ blocks pushed,
      blocks.flatten = us ∧
      (unitLoop f resolve title st 0 us).pages = st.pages ++ pushed ∧
      (unitLoop f resolve title st 0 us).limit = st.limit ∧
      BlockChain f resolve title st.limit blocks pushed
        (unitLoop f resolve title st 0 us).buffer
        (unitLoop f resolve title st 0 us).written := by
  intro us st hbuf hw
  cases us with
  | nil =>
    refine ⟨[], [], rfl, by simp [unitLoop], rfl, ?_⟩
    show BlockChain f resolve title st.limit [] [] st.buffer st.written
    rw [hbuf]
    exact BlockChain.nil st.written
  | cons u rest =>
    have heq := unitStep_eq_first f resolve title st u
    set st1 : WriterState := { st with buffer := [], written := 0 } with hst1
    set st2 := lineBreak (lineBreak (writeTitle resolve st1 title)) with hst2
    set st3 := f st2 u with hst3
    have hloop : unitLoop f resolve title st 0 (u :: rest) =
        unitLoop f resolve title st3 1 rest := by
      rw [unitLoop, heq]
    obtain ⟨hf1, hf2⟩ := hframe u st2
    have hscr : IsScratch f u ((f { st2 with buffer := [] } u).buffer) :=
      ⟨{ st2 with buffer := [] }, rfl, rfl⟩
    obtain ⟨t, b1, b2, ht, hb1, hb2, hsplit0⟩ :=
      titleBreaks_split resolve title st1 rfl
    have hsplit : st2.buffer = t ++ (b1 ++ b2) := by
      rw [hst2]
      exact hsplit0
    have hpageR : PageOf f resolve title [u] st3.buffer := by
      refine ⟨t, b1, b2, (f { st2 with buffer := [] } u).buffer, ht, hb1, hb2,
        UnitsChain.single u _ hscr, ?_⟩
      show st3.buffer = _
      rw [hst3, hf1, hsplit]
      simp [List.append_assoc]
    have h2raw0 := rawOk_titleBreaks resolve title st1
    have h2raw : rawLen st2.buffer ≤ st2.written := by
      rw [hst2]
      simpa [rawLen] using h2raw0
    have hrawR : rawLen st3.buffer + ([u] : List U).length ≤ st3.written + 1 := by
      show rawLen st3.buffer + 1 ≤ st3.written + 1
      have h3 : rawLen st3.buffer + st2.written ≤ rawLen st2.buffer + st3.written := by
        rw [hst3]
        exact hraw u st2
      omega
    have hbudR : 2 ≤ ([u] : List U).length →
        st3.written + 1 ≤ st3.limit + ([u] : List U).length := by
      intro h2
      simp at h2
    obtain ⟨hp20, hl20, -⟩ := shapeOk_titleBreaks resolve title st1
    have hpag2 : st2.pages = st.pages := by
      rw [hst2, hp20]
    have hlim2 : st2.limit = st.limit := by
      rw [hst2, hl20]
    obtain ⟨hp30, hl30, -⟩ := hshape u st2
    have hpag3 : st3.pages = st.pages := by
      rw [hst3]
      rw [show (f st2 u).pages = st2.pages from hp30]
      exact hpag2
    have hlim3 : st3.limit = st.limit := by
      rw [hst3]
      rw [show (f st2 u).limit = st2.limit from hl30]
      exact hlim2
    obtain ⟨blocks2, pushed2, hflat2, hpages2, hlim2', hchain2⟩ :=
      unitLoop_chain f resolve title hraw hshape rest st3 1 [u] Nat.one_pos
        (by simp) hpageR hrawR hbudR
    rw [hlim3] at hchain2
    refine ⟨blocks2, pushed2, by simpa using hflat2, ?_, ?_, ?_⟩
    · rw [hloop, hpages2, hpag3]
    · rw [hloop, hlim2', hlim3]
    · rw [hloop]
      exact hchain2

theorem newPage_writerNew (pgs : List Page) :
    newPage (writerNew pgs) = writerNew pgs := rfl

/-! ## Claim C1: the accumulation step and unit atomicity -/

/-- Claim C1 (amended).  For a fresh writer over any existing pages, both
`write_paragraphs` and `write_item_rows` partition their units into
consecutive non-empty blocks (`BlockChain`): every page they push is the
page render of one whole block — the title render, two budget-guarded line
breaks, then the whole scratch renders of the block's units joined by
single line breaks — so no paragraph, list, code unit or item row is ever
split across two pages; within a page, consecutive units are joined by
exactly one line break; and every page break is forced: the scratch length
of the next unit plus the sealed page's tracked length plus one joining
break exceeds the budget of 1000.  (Amendment: on the fresh page the two
line breaks after the title are each suppressed when the running length
already reached the budget, which happens only for oversized units or
titles.) -/
theorem unit_atomic_pagination :
    ∀ (resolve : String → Option String) (base : String) (title : List TextPart)
      (pgs : List Page) (ps : List Paragraph) (rows : List ItemRow),
    (∃ blocks pushed,
      blocks.flatten = ps ∧
      (write_paragraphs resolve base (writerNew pgs) title ps).pages = pgs ++ pushed ∧
      BlockChain (fun s u => renderParagraph resolve base s u) resolve title 1000
        blocks pushed
        (write_paragraphs resolve base (writerNew pgs) title ps).buffer
        (write_paragraphs resolve base (writerNew pgs) title ps).written) ∧
    (∃ blocks pushed,
      blocks.flatten = rows ∧
      (write_item_rows resolve base (writerNew pgs) title rows).pages = pgs ++ pushed ∧
      BlockChain (fun s r => renderRow resolve base s r) resolve title 1000
        blocks pushed
        (write_item_rows resolve base (writerNew pgs) title rows).buffer
        (write_item_rows resolve base (writerNew pgs) title rows).written) := by
  intro resolve base title pgs ps rows
  constructor
  · obtain ⟨blocks, pushed, h1, h2, h3, h4⟩ :=
      section_chain (fun s u => renderParagraph resolve base s u) resolve title
        (fun u => rawOk_renderParagraph resolve base u)
        (fun u => shapeOk_renderParagraph resolve base u)
        (fun u => frameOk_renderParagraph resolve base u)
        ps (writerNew pgs) rfl rfl
    exact ⟨blocks, pushed, h1, h2, h4⟩
  · obtain ⟨blocks, pushed, h1, h2, h3, h4⟩ :=
      section_chain (fun s r => renderRow resolve base s r) resolve title
        (fun r => rawOk_renderRow resolve base r)
        (fun r => shapeOk_renderRow resolve base r)
        (fun r => frameOk_renderRow resolve base r)
        rows (writerNew pgs) rfl rfl
    exact ⟨blocks, pushed, h1, h2, h4⟩

/-- Counterexample to C1 as stated: with a 600-character title and two
450-character paragraphs, the second paragraph forces a page break, but the
fresh page is NOT "title + two line breaks + scratch": the running length
(450 scratch + 600 title = 1050) has already reached the budget when the
two `line_break` calls run, so both breaks are suppressed — the second
page contains no line break at all, while the first page shows the two
breaks after its title. -/
theorem unit_atomic_pagination_counterexample :
    ((finalize (write_paragraphs (fun s => some s) "b" (writerNew [])
        [TextPart.text (String.mk (List.replicate 600 't'))]
        [Paragraph.text [TextPart.text (String.mk (List.replicate 450 'a'))],
         Paragraph.text [TextPart.text (String.mk (List.replicate 450 'b'))]])).map
      (fun p => (renderChunks p.text).data.count '\n')) = [2, 0] ∧
    (2 : Nat) ≠ 0 := by
  constructor
  · decide
  · decide


/-! ## Claim C2: budget respect -/

/-- Claim C2 (amended).  For a fresh writer over any existing pages, in
both `write_paragraphs` and `write_item_rows` the length the writer tracks
for a page — the raw (pre-escape, markup-free) UTF-8 length of its literal
text and line breaks, the quantity `rawLen` — stays within the budget of
1000 for every page holding at least two units; a page holding exactly one
unit may exceed the budget (the oversized unit is emitted whole); the
RENDERED text length (with markup markers and HTML escapes) is not bounded
by 1000, see the counterexample. -/
theorem budget_respected :
    ∀ (resolve : String → Option String) (base : String) (title : List TextPart)
      (pgs : List Page) (ps : List Paragraph) (rows : List ItemRow),
    (∃ blocks pushed,
      blocks.flatten = ps ∧
      (write_paragraphs resolve base (writerNew pgs) title ps).pages = pgs ++ pushed ∧
      BlockChain (fun s u => renderParagraph resolve base s u) resolve title 1000
        blocks pushed
        (write_paragraphs resolve base (writerNew pgs) title ps).buffer
        (write_paragraphs resolve base (writerNew pgs) title ps).written ∧
      (∀ (i : Nat) (b : List Paragraph) (p : Page),
        blocks[i]? = some b → pushed[i]? = some p → 2 ≤ b.length →
        rawLen p.text ≤ 1000) ∧
      (∀ b : List Paragraph, blocks.getLast? = some b → 2 ≤ b.length →
        rawLen (write_paragraphs resolve base (writerNew pgs) title ps).buffer ≤ 1000)) ∧
    (∃ blocks pushed,
      blocks.flatten = rows ∧
      (write_item_rows resolve base (writerNew pgs) title rows).pages = pgs ++ pushed ∧
      BlockChain (fun s r => renderRow resolve base s r) resolve title 1000
        blocks pushed
        (write_item_rows resolve base (writerNew pgs) title rows).buffer
        (write_item_rows resolve base (writerNew pgs) title rows).written ∧
      (∀ (i : Nat) (b : List ItemRow) (p : Page),
        blocks[i]? = some b → pushed[i]? = some p → 2 ≤ b.length →
        rawLen p.text ≤ 1000) ∧
      (∀ b : List ItemRow, blocks.getLast? = some b → 2 ≤ b.length →
        rawLen (write_item_rows resolve base (writerNew pgs) title rows).buffer ≤ 1000)) := by
  intro resolve base title pgs ps rows
  constructor
  · obtain ⟨blocks, pushed, h1, h2, h3, h4⟩ :=
      section_chain (fun s u => renderParagraph resolve base s u) resolve title
        (fun u => rawOk_renderParagraph resolve base u)
        (fun u => shapeOk_renderParagraph resolve base u)
        (fun u => frameOk_renderParagraph resolve base u)
        ps (writerNew pgs) rfl rfl
    obtain ⟨hb1, hb2⟩ := blockChain_raw_bound h4
    exact ⟨blocks, pushed, h1, h2, h4, hb1, hb2⟩
  · obtain ⟨blocks, pushed, h1, h2, h3, h4⟩ :=
      section_chain (fun s r => renderRow resolve base s r) resolve title
        (fun r => rawOk_renderRow resolve base r)
        (fun r => shapeOk_renderRow resolve base r)
        (fun r => frameOk_renderRow resolve base r)
        rows (writerNew pgs) rfl rfl
    obtain ⟨hb1, hb2⟩ := blockChain_raw_bound h4
    exact ⟨blocks, pushed, h1, h2, h4, hb1, hb2⟩

/-- Counterexample to C2 as stated: two bold 495-character paragraphs under
an empty title produce ONE page whose rendered text is 1007 characters long
— over the budget — although the page holds two units and each unit's own
render, markup included, is only 502 ≤ 1000 characters: the writer's
counter ignores the `<b>`/`</b>` markers (and HTML-escape expansion), so
the RENDERED length of a multi-unit page can exceed 1000. -/
theorem budget_respected_counterexample :
    ((finalize (write_paragraphs (fun s => some s) "b" (writerNew []) []
        [Paragraph.text [TextPart.beginStyle .bold,
           TextPart.text (String.mk (List.replicate 495 'a')), TextPart.endStyle],
         Paragraph.text [TextPart.beginStyle .bold,
           TextPart.text (String.mk (List.replicate 495 'a')), TextPart.endStyle]])).map
      (fun p => utf8Len (renderChunks p.text))) = [1007] ∧
    utf8Len (renderChunks (renderParagraph (fun s => some s) "b" (writerNew [])
      (Paragraph.text [TextPart.beginStyle .bold,
        TextPart.text (String.mk (List.replicate 495 'a')), TextPart.endStyle])).buffer)
      = 502 ∧
    (502 : Nat) ≤ 1000 ∧ (1000 : Nat) < 1007 := by
  refine ⟨?_, ?_, ?_, ?_⟩
  · decide
  · decide
  · decide
  · decide

end Rsdocbot
